import Mathlib

/-!
Verification development for the shroom-wz WZ-archive library.

The definitions below are a shallow embedding of the Rust sources under
crates/shroom-wz/src.  Machine integers are modelled as Nat (or Int for
signed values) with explicit reduction modulo 2^w where the Rust code uses
wrapping arithmetic; byte streams are lists of Nat (each element a byte
value below 256); fallible reads return Option.  The AES-256 block cipher
used by the key-stream generator is an external dependency of the crate
(the aes crate); it is modelled as an arbitrary block function parameter,
since no property proved here depends on the concrete permutation.
-/

/-! ## Word-level helpers -/

/-- Word size 2^32 used by the u32 wrapping arithmetic in crypto.rs. -/
def U32 : Nat := 2 ^ 32

/-- Reduction modulo 2^32, the semantics of u32 wrapping results. -/
def wrap32 (x : Nat) : Nat := x % U32

/-- Wrapping subtraction on u32, as Rust Wrapping sub / wrapping_sub. -/
def wsub32 (a b : Nat) : Nat := (a % U32 + U32 - b % U32) % U32

/-- Bitwise NOT on u32, as the Rust expression !x on u32. -/
def wnot32 (x : Nat) : Nat := U32 - 1 - x % U32

/-- Rotate a 32-bit word left by s bits (s below 32), as u32 rotate_left. -/
def rotateLeft32 (x s : Nat) : Nat :=
  ((x <<< s) % U32) ||| (x >>> (32 - s))

/-! ## Offset crypto (crypto.rs, WzCrypto) -/

/-- Model of the WzCrypto offset-scrambling state: the derived version hash,
the archive data offset and the region offset magic (crypto.rs fields
version_hash, data_offset, offset_magic). -/
structure WzCrypto where
  versionHash : Nat
  dataOffset : Nat
  offsetMagic : Nat

/-- Embedding of WzCrypto::offset_key_at (crypto.rs lines 108-115):
x = !(pos - data_offset); x *= version_hash; x -= offset_magic;
rotate left by x and 0x1F, all on wrapping u32. -/
def WzCrypto.offset_key_at (c : WzCrypto) (pos dataOffset : Nat) : Nat :=
  let o1 := wnot32 (wsub32 pos dataOffset)
  let o2 := wrap32 (o1 * c.versionHash)
  let o3 := wsub32 o2 c.offsetMagic
  rotateLeft32 o3 (o3 &&& 0x1F)

/-- Embedding of WzCrypto::decrypt_offset (crypto.rs lines 117-120):
(k xor encrypted) wrapping_add (data_offset * 2). -/
def WzCrypto.decrypt_offset (c : WzCrypto) (encryptedOffset pos : Nat) : Nat :=
  let k := c.offset_key_at pos c.dataOffset
  wrap32 ((k ^^^ encryptedOffset) + wrap32 (c.dataOffset * 2))

/-- Embedding of WzCrypto::encrypt_offset (crypto.rs lines 122-125):
(off wrapping_sub (data_offset * 2)) xor k. -/
def WzCrypto.encrypt_offset (c : WzCrypto) (off pos : Nat) : Nat :=
  let o := wsub32 off (wrap32 (c.dataOffset * 2))
  o ^^^ c.offset_key_at pos c.dataOffset

/-! ## Compressed integers (ty.rs, WzInt and WzLong) -/

/-- Little-endian byte list of the low (8 * w) bits of v. -/
def toLEBytes : Nat → Nat → List Nat
  | 0, _ => []
  | w + 1, v => (v % 256) :: toLEBytes w (v / 256)

/-- Value of a little-endian byte list. -/
def fromLEBytes : List Nat → Nat
  | [] => 0
  | b :: rest => b + 256 * fromLEBytes rest

/-- Two's-complement reading of an unsigned value n below 2^bits. -/
def asSigned (bits : Nat) (n : Nat) : Int :=
  if n < 2 ^ (bits - 1) then (n : Int) else (n : Int) - 2 ^ bits

/-- Embedding of the BinWrite impl for WzInt (ty.rs lines 46-63): a value
representable as i8 other than -128 is written as that single byte;
otherwise the flag byte -128 (0x80) is followed by the full i32
little-endian. -/
def encodeWzInt (v : Int) : List Nat :=
  if -127 ≤ v ∧ v ≤ 127 then [(v % 256).toNat]
  else 128 :: toLEBytes 4 ((v % (2 ^ 32)).toNat)

/-- Embedding of the BinRead impl for WzInt (ty.rs lines 31-44): read an i8
flag; -128 means a full little-endian i32 follows, any other flag is the
value itself.  Returns the value and the unread rest of the stream. -/
def decodeWzInt (bs : List Nat) : Option (Int × List Nat) :=
  match bs with
  | [] => none
  | b :: rest =>
    if asSigned 8 b = -128 then
      if 4 ≤ rest.length then
        some (asSigned 32 (fromLEBytes (rest.take 4)), rest.drop 4)
      else none
    else some (asSigned 8 b, rest)

/-- Embedding of the BinWrite impl for WzLong (ty.rs lines 84-101). -/
def encodeWzLong (v : Int) : List Nat :=
  if -127 ≤ v ∧ v ≤ 127 then [(v % 256).toNat]
  else 128 :: toLEBytes 8 ((v % (2 ^ 64)).toNat)

/-- Embedding of the BinRead impl for WzLong (ty.rs lines 69-82). -/
def decodeWzLong (bs : List Nat) : Option (Int × List Nat) :=
  match bs with
  | [] => none
  | b :: rest =>
    if asSigned 8 b = -128 then
      if 8 ≤ rest.length then
        some (asSigned 64 (fromLEBytes (rest.take 8)), rest.drop 8)
      else none
    else some (asSigned 8 b, rest)

/-! ## Helper lemmas -/

theorem fromLEBytes_toLEBytes (w v : Nat) :
    fromLEBytes (toLEBytes w v) = v % 256 ^ w := by
  induction w generalizing v with
  | zero => simp [toLEBytes, fromLEBytes, Nat.mod_one]
  | succ w ih =>
    simp only [toLEBytes, fromLEBytes, ih]
    have h256 : (256 : Nat) ^ (w + 1) = 256 * 256 ^ w := by ring
    rw [h256, Nat.mod_mul]

theorem toLEBytes_length (w v : Nat) : (toLEBytes w v).length = w := by
  induction w generalizing v with
  | zero => simp [toLEBytes]
  | succ w ih => simp [toLEBytes, ih]

theorem asSigned8_wrap (v : Int) (h1 : -128 ≤ v) (h2 : v < 128) :
    asSigned 8 ((v % 256).toNat) = v := by
  unfold asSigned
  simp only [show (2 : Nat) ^ (8 - 1) = 128 from rfl, show ((2 : Int) ^ 8) = 256 from rfl]
  split <;> omega

theorem asSigned32_wrap (v : Int) (h1 : -(2 ^ 31) ≤ v) (h2 : v < 2 ^ 31) :
    asSigned 32 ((v % 2 ^ 32).toNat) = v := by
  unfold asSigned
  simp only [show (2 : Nat) ^ (32 - 1) = 2147483648 from rfl,
    show ((2 : Int) ^ 32) = 4294967296 from rfl]
  have h1 : -(2147483648 : Int) ≤ v := by exact_mod_cast h1
  have h2 : v < (2147483648 : Int) := by exact_mod_cast h2
  split <;> omega

theorem asSigned64_wrap (v : Int) (h1 : -(2 ^ 63) ≤ v) (h2 : v < 2 ^ 63) :
    asSigned 64 ((v % 2 ^ 64).toNat) = v := by
  unfold asSigned
  simp only [show (2 : Nat) ^ (64 - 1) = 9223372036854775808 from rfl,
    show ((2 : Int) ^ 64) = 18446744073709551616 from rfl]
  have h1 : -(9223372036854775808 : Int) ≤ v := by exact_mod_cast h1
  have h2 : v < (9223372036854775808 : Int) := by exact_mod_cast h2
  split <;> omega

/-! ## Claim theorems: C1 and C3 -/

/-- C1: for every 32-bit offset and every 32-bit position with
pos at or beyond data_offset, decrypting the encryption of an offset is the
identity, for any configured version hash, offset magic and data offset,
all arithmetic wrapping modulo 2^32. -/
theorem c1_offset_roundtrip (c : WzCrypto) (off pos : Nat)
    (hoff : off < U32) (_hpos : pos < U32) (_hge : c.dataOffset ≤ pos) :
    c.decrypt_offset (c.encrypt_offset off pos) pos = off := by
  unfold WzCrypto.decrypt_offset WzCrypto.encrypt_offset
  set k := c.offset_key_at pos c.dataOffset with hk
  set d2 := wrap32 (c.dataOffset * 2) with hd2
  have hx : k ^^^ (wsub32 off d2 ^^^ k) = wsub32 off d2 := by
    rw [Nat.xor_comm (wsub32 off d2) k, ← Nat.xor_assoc, Nat.xor_self, Nat.zero_xor]
  simp only [hx]
  have hlt : d2 < U32 := by
    rw [hd2]
    exact Nat.mod_lt _ (by simp [U32])
  simp only [wrap32, wsub32, U32] at *
  omega

/-- Witness for C1 at the concrete scenario values: version hash 1910
(version 95), data offset 60, offset 4681 at field position 89. -/
theorem c1_offset_roundtrip_witness :
    WzCrypto.decrypt_offset ⟨1910, 60, 1478334317⟩
      (WzCrypto.encrypt_offset ⟨1910, 60, 1478334317⟩ 4681 89) 89 = 4681 :=
  c1_offset_roundtrip ⟨1910, 60, 1478334317⟩ 4681 89 (by decide) (by decide) (by decide)

/-- C3: WzInt and WzLong use exactly one byte for values in -127..=127,
five bytes (nine for WzLong) for -128 and for magnitudes above 127,
decoding inverts encoding over the full i32 (i64) range, and the encodings
of 0, 127, -127, -128 and 128 are the listed byte strings. -/
theorem c3_wzint_wzlong_codec :
    (∀ v : Int, -127 ≤ v → v ≤ 127 →
      (encodeWzInt v).length = 1 ∧ (encodeWzLong v).length = 1)
  ∧ (∀ v : Int, -(2 ^ 31) ≤ v → v < 2 ^ 31 → (v = -128 ∨ v < -127 ∨ 127 < v) →
      (encodeWzInt v).length = 5)
  ∧ (∀ v : Int, -(2 ^ 63) ≤ v → v < 2 ^ 63 → (v = -128 ∨ v < -127 ∨ 127 < v) →
      (encodeWzLong v).length = 9)
  ∧ (∀ v : Int, -(2 ^ 31) ≤ v → v < 2 ^ 31 → decodeWzInt (encodeWzInt v) = some (v, []))
  ∧ (∀ v : Int, -(2 ^ 63) ≤ v → v < 2 ^ 63 → decodeWzLong (encodeWzLong v) = some (v, []))
  ∧ encodeWzInt 0 = [0x00]
  ∧ encodeWzInt 127 = [0x7F]
  ∧ encodeWzInt (-127) = [0x81]
  ∧ encodeWzInt (-128) = [0x80, 0x80, 0xFF, 0xFF, 0xFF]
  ∧ encodeWzInt 128 = [0x80, 0x80, 0x00, 0x00, 0x00] := by
  refine ⟨?_, ?_, ?_, ?_, ?_, by decide, by decide, by decide, by decide, by decide⟩
  · intro v h1 h2
    refine ⟨?_, ?_⟩
    · unfold encodeWzInt
      rw [if_pos ⟨h1, h2⟩]
      rfl
    · unfold encodeWzLong
      rw [if_pos ⟨h1, h2⟩]
      rfl
  · intro v h1 h2 h3
    unfold encodeWzInt
    rw [if_neg (by omega)]
    simp [toLEBytes_length]
  · intro v h1 h2 h3
    unfold encodeWzLong
    rw [if_neg (by omega)]
    simp [toLEBytes_length]
  · intro v h1 h2
    unfold encodeWzInt
    by_cases hc : -127 ≤ v ∧ v ≤ 127
    · rw [if_pos hc]
      have hv : asSigned 8 ((v % 256).toNat) = v := asSigned8_wrap v (by omega) (by omega)
      simp only [decodeWzInt, hv]
      rw [if_neg (by omega)]
    · rw [if_neg hc]
      have hlen : (toLEBytes 4 ((v % 2 ^ 32).toNat)).length = 4 := toLEBytes_length _ _
      have hm : fromLEBytes (toLEBytes 4 ((v % 2 ^ 32).toNat)) = (v % 2 ^ 32).toNat := by
        rw [fromLEBytes_toLEBytes]
        have hsz : ((v % 2 ^ 32).toNat) < 2 ^ 32 := by omega
        exact Nat.mod_eq_of_lt (by simpa using hsz)
      simp only [decodeWzInt]
      rw [if_pos (by decide : asSigned 8 128 = -128), if_pos (by simp [toLEBytes_length])]
      rw [List.take_of_length_le (le_of_eq hlen), List.drop_of_length_le (le_of_eq hlen),
        hm, asSigned32_wrap v h1 h2]
  · intro v h1 h2
    unfold encodeWzLong
    by_cases hc : -127 ≤ v ∧ v ≤ 127
    · rw [if_pos hc]
      have hv : asSigned 8 ((v % 256).toNat) = v := asSigned8_wrap v (by omega) (by omega)
      simp only [decodeWzLong, hv]
      rw [if_neg (by omega)]
    · rw [if_neg hc]
      have hlen : (toLEBytes 8 ((v % 2 ^ 64).toNat)).length = 8 := toLEBytes_length _ _
      have hm : fromLEBytes (toLEBytes 8 ((v % 2 ^ 64).toNat)) = (v % 2 ^ 64).toNat := by
        rw [fromLEBytes_toLEBytes]
        have hsz : ((v % 2 ^ 64).toNat) < 2 ^ 64 := by omega
        exact Nat.mod_eq_of_lt (by simpa using hsz)
      simp only [decodeWzLong]
      rw [if_pos (by decide : asSigned 8 128 = -128), if_pos (by simp [toLEBytes_length])]
      rw [List.take_of_length_le (le_of_eq hlen), List.drop_of_length_le (le_of_eq hlen),
        hm, asSigned64_wrap v h1 h2]

/-- Witness for C3 at concrete values 31415 (WzInt) and -300 (WzLong). -/
theorem c3_wzint_wzlong_codec_witness :
    decodeWzInt (encodeWzInt 31415) = some (31415, [])
  ∧ decodeWzLong (encodeWzLong (-300)) = some (-300, []) := by
  obtain ⟨-, -, -, h4, h5, -⟩ := c3_wzint_wzlong_codec
  exact ⟨h4 31415 (by norm_num) (by norm_num), h5 (-300) (by norm_num) (by norm_num)⟩

/-! ## Stream-cipher transform (crypto.rs, WzCrypto::transform)

The AES-256 block encryption (next_xor_key) is an external dependency; it
is modelled as a block function parameter E on 16-byte blocks, with the
hypothesis HE that E always returns 16 bytes. -/

/-- Embedding of WzCrypto::fill_key (crypto.rs lines 65-74): starting from
the IV, repeatedly encrypt the running state and collect the successive
16-byte key blocks. -/
def wzKeyBlocks (E : List Nat → List Nat) (iv : List Nat) : Nat → List (List Nat)
  | 0 => []
  | n + 1 =>
    let key := E iv
    key :: wzKeyBlocks E key n

/-- The precomputed xor_key_buffer of WZ_KEY_BUFFER_LEN = 16 * 256 = 4096
bytes built at construction (crypto.rs lines 55-57). -/
def xorKeyBuffer (E : List Nat → List Nat) (iv : List Nat) : List Nat :=
  (wzKeyBlocks E iv 256).flatten

/-- Embedding of WzCrypto::transform_small (crypto.rs lines 80-83): xor the
buffer in place with the matching prefix of the precomputed key buffer. -/
def transformSmall (E : List Nat → List Nat) (iv : List Nat) (buf : List Nat) : List Nat :=
  List.zipWith Nat.xor buf ((xorKeyBuffer E iv).take buf.length)

/-- Embedding of WzCrypto::transform_large (crypto.rs lines 85-97): walk the
buffer in 16-byte chunks, generating a fresh key block for each chunk from
the running state (seeded with the stored IV), and xor the tail shorter
than 16 bytes with a prefix of one further block. -/
def transformLargeGo (E : List Nat → List Nat) (key buf : List Nat) : List Nat :=
  if buf.length < 16 then
    let k := E key
    List.zipWith Nat.xor buf (k.take buf.length)
  else
    let k := E key
    List.zipWith Nat.xor (buf.take 16) k ++ transformLargeGo E k (buf.drop 16)
termination_by buf.length
decreasing_by simp [List.length_drop]; omega

/-- Embedding of WzCrypto::transform (crypto.rs lines 99-106): buffers up to
WZ_KEY_BUFFER_LEN = 4096 bytes use the precomputed key buffer, larger ones
regenerate the key stream block by block from the stored IV. -/
def transform (E : List Nat → List Nat) (iv : List Nat) (buf : List Nat) : List Nat :=
  if buf.length ≤ 4096 then transformSmall E iv buf
  else transformLargeGo E iv buf

theorem xor_xor_self_right (a b : Nat) : Nat.xor (Nat.xor a b) b = a := by
  show (a ^^^ b) ^^^ b = a
  rw [Nat.xor_assoc, Nat.xor_self, Nat.xor_zero]

theorem zipWith_xor_xor_cancel (b : List Nat) : ∀ k : List Nat,
    List.zipWith Nat.xor (List.zipWith Nat.xor b k) k = b.take k.length := by
  induction b with
  | nil => intro k; simp
  | cons x b ih =>
    intro k
    cases k with
    | nil => simp
    | cons k0 k => simp [ih, xor_xor_self_right]

theorem wzKeyBlocks_flatten_length (E : List Nat → List Nat)
    (HE : ∀ b, (E b).length = 16) (n : Nat) : ∀ iv,
    ((wzKeyBlocks E iv n).flatten).length = 16 * n := by
  induction n with
  | zero => intro iv; simp [wzKeyBlocks]
  | succ n ih =>
    intro iv
    simp [wzKeyBlocks, HE, ih]
    omega

theorem xorKeyBuffer_length (E : List Nat → List Nat)
    (HE : ∀ b, (E b).length = 16) (iv : List Nat) :
    (xorKeyBuffer E iv).length = 4096 :=
  wzKeyBlocks_flatten_length E HE 256 iv

theorem transformSmall_length (E : List Nat → List Nat)
    (HE : ∀ b, (E b).length = 16) (iv buf : List Nat) (h : buf.length ≤ 4096) :
    (transformSmall E iv buf).length = buf.length := by
  simp [transformSmall, List.length_take, xorKeyBuffer_length E HE]
  omega

theorem transformSmall_involutive (E : List Nat → List Nat)
    (HE : ∀ b, (E b).length = 16) (iv buf : List Nat) (h : buf.length ≤ 4096) :
    transformSmall E iv (transformSmall E iv buf) = buf := by
  have hlen : (transformSmall E iv buf).length = buf.length :=
    transformSmall_length E HE iv buf h
  unfold transformSmall
  rw [show (List.zipWith Nat.xor buf ((xorKeyBuffer E iv).take buf.length)).length
      = buf.length from hlen]
  rw [zipWith_xor_xor_cancel]
  rw [List.length_take, xorKeyBuffer_length E HE]
  exact List.take_of_length_le (by omega)

theorem transformLargeGo_length (E : List Nat → List Nat)
    (HE : ∀ b, (E b).length = 16) :
    ∀ (n : Nat) (key buf : List Nat), buf.length ≤ n →
      (transformLargeGo E key buf).length = buf.length := by
  intro n
  induction n with
  | zero =>
    intro key buf hb
    unfold transformLargeGo
    rw [if_pos (by omega)]
    simp only [List.length_zipWith, List.length_take, HE]
    omega
  | succ n ih =>
    intro key buf hb
    unfold transformLargeGo
    split
    · simp only [List.length_zipWith, List.length_take, HE]
      omega
    · rename_i hge
      rw [List.length_append, List.length_zipWith,
        ih (E key) (buf.drop 16) (by simp [List.length_drop]; omega)]
      simp [List.length_take, List.length_drop, HE]
      omega

theorem transformLargeGo_involutive (E : List Nat → List Nat)
    (HE : ∀ b, (E b).length = 16) :
    ∀ (n : Nat) (key buf : List Nat), buf.length ≤ n →
      transformLargeGo E key (transformLargeGo E key buf) = buf := by
  intro n
  induction n with
  | zero =>
    intro key buf hb
    have hb0 : buf = [] := by
      cases buf
      · rfl
      · simp at hb
    subst hb0
    have h0 : transformLargeGo E key [] = [] := by
      unfold transformLargeGo
      simp
    rw [h0, h0]
  | succ n ih =>
    intro key buf hb
    by_cases hsmall : buf.length < 16
    · have h1 : transformLargeGo E key buf
          = List.zipWith Nat.xor buf ((E key).take buf.length) := by
        conv_lhs => unfold transformLargeGo
        rw [if_pos hsmall]
      have hlen1 : (List.zipWith Nat.xor buf ((E key).take buf.length)).length
          = buf.length := by
        simp only [List.length_zipWith, List.length_take, HE]
        omega
      rw [h1]
      unfold transformLargeGo
      rw [if_pos (by omega), hlen1, zipWith_xor_xor_cancel]
      rw [List.length_take, HE]
      exact List.take_of_length_le (by omega)
    · have h1 : transformLargeGo E key buf
          = List.zipWith Nat.xor (buf.take 16) (E key)
            ++ transformLargeGo E (E key) (buf.drop 16) := by
        conv_lhs => unfold transformLargeGo
        rw [if_neg hsmall]
      have hdn : (buf.drop 16).length ≤ n := by
        simp only [List.length_drop]
        omega
      rw [h1]
      set A := List.zipWith Nat.xor (buf.take 16) (E key) with hAdef
      set B := transformLargeGo E (E key) (buf.drop 16) with hBdef
      have hA : A.length = 16 := by
        rw [hAdef]
        simp only [List.length_zipWith, List.length_take, HE]
        omega
      have hB : B.length = buf.length - 16 := by
        rw [hBdef, transformLargeGo_length E HE n (E key) (buf.drop 16) hdn]
        simp only [List.length_drop]
      have htake : (A ++ B).take 16 = A := by
        have h := List.take_left A B
        rwa [hA] at h
      have hdrop : (A ++ B).drop 16 = B := by
        have h := List.drop_left A B
        rwa [hA] at h
      unfold transformLargeGo
      rw [if_neg (by rw [List.length_append, hA]; omega)]
      rw [htake, hdrop, hAdef]
      show List.zipWith Nat.xor (List.zipWith Nat.xor (List.take 16 buf) (E key)) (E key)
          ++ transformLargeGo E (E key) B = buf
      rw [zipWith_xor_xor_cancel, HE]
      rw [List.take_of_length_le (by simp [List.length_take])]
      rw [hBdef, ih (E key) (buf.drop 16) hdn]
      exact List.take_append_drop 16 buf

theorem transform_length (E : List Nat → List Nat)
    (HE : ∀ b, (E b).length = 16) (iv buf : List Nat) :
    (transform E iv buf).length = buf.length := by
  unfold transform
  split
  · exact transformSmall_length E HE iv buf (by omega)
  · exact transformLargeGo_length E HE buf.length iv buf le_rfl

theorem transform_transform (E : List Nat → List Nat) (iv : List Nat)
    (HE : ∀ b, (E b).length = 16) (buf : List Nat) :
    transform E iv (transform E iv buf) = buf := by
  unfold transform
  by_cases h : buf.length ≤ 4096
  · rw [if_pos h]
    rw [if_pos (by rw [transformSmall_length E HE iv buf h]; exact h)]
    exact transformSmall_involutive E HE iv buf h
  · rw [if_neg h]
    rw [if_neg (by rw [transformLargeGo_length E HE buf.length iv buf le_rfl]; exact h)]
    exact transformLargeGo_involutive E HE buf.length iv buf le_rfl

/-- C2: applying WzCrypto::transform twice restores the original byte
sequence, for buffers of any length; both the precomputed-buffer path
(length at most 4096) and the block-by-block path re-derive the same key
stream from the stored IV, so the transform is a pure function of the IV
and the buffer, stateless in the stream position.  E is the AES-256 block
encryption, assumed only to produce 16-byte blocks. -/
theorem c2_transform_involutive (E : List Nat → List Nat) (iv : List Nat)
    (HE : ∀ b, (E b).length = 16) (buf : List Nat) :
    transform E iv (transform E iv buf) = buf :=
  transform_transform E iv HE buf

/-- Witness for C2 with a concrete block function and buffer. -/
theorem c2_transform_involutive_witness :
    transform (fun _ => List.range 16) (List.range 16)
      (transform (fun _ => List.range 16) (List.range 16) [1, 2, 3]) = [1, 2, 3] :=
  c2_transform_involutive (fun _ => List.range 16) (List.range 16)
    (fun _ => by simp) [1, 2, 3]

/-! ## String codec (ty.rs, WzStr) -/

/-- Rolling byte mask of xor_mask_ascii (ty.rs lines 142-148): the mask
starts at 0xAA and increments per byte, wrapping on u8. -/
def maskStreamAscii (n : Nat) : List Nat :=
  (List.range n).map (fun i => (0xAA + i) % 256)

/-- Embedding of xor_mask_ascii: xor each byte with the rolling mask. -/
def xorMaskAscii (data : List Nat) : List Nat :=
  List.zipWith Nat.xor data (maskStreamAscii data.length)

/-- Rolling u16 mask of xor_mask_unicode (ty.rs lines 150-156): the mask
starts at 0xAAAA and increments per code unit, wrapping on u16. -/
def maskStreamUnicode (n : Nat) : List Nat :=
  (List.range n).map (fun i => (0xAAAA + i) % 65536)

/-- Embedding of xor_mask_unicode: xor each u16 unit with the rolling mask. -/
def xorMaskUnicode (units : List Nat) : List Nat :=
  List.zipWith Nat.xor units (maskStreamUnicode units.length)

/-- Little-endian byte view of a u16 array, as the bytemuck cast_slice used
by the WzStr impls. -/
def u16ToBytes (units : List Nat) : List Nat :=
  units.flatMap (fun u => [u % 256, (u / 256) % 256])

/-- Reassembling u16 values from their little-endian byte view. -/
def bytesToU16 : List Nat → List Nat
  | [] => []
  | [_] => []
  | b0 :: b1 :: rest => (b0 + 256 * b1) :: bytesToU16 rest

/-- Model of str::encode_utf16 (external standard library): code points
below 0x10000 become one unit, the rest a surrogate pair. -/
def encodeUtf16 (cps : List Nat) : List Nat :=
  cps.flatMap (fun c =>
    if c < 0x10000 then [c]
    else [0xD800 + (c - 0x10000) / 0x400, 0xDC00 + (c - 0x10000) % 0x400])

/-- Model of String::from_utf16 (external standard library): non-surrogate
units are code points, a high surrogate must pair with a low one, anything
else is an error. -/
def decodeUtf16 : List Nat → Option (List Nat)
  | [] => some []
  | u :: rest =>
    if u < 0xD800 ∨ 0xE000 ≤ u then
      (decodeUtf16 rest).map (fun l => u :: l)
    else if u < 0xDC00 then
      match rest with
      | u2 :: rest2 =>
        if 0xDC00 ≤ u2 ∧ u2 < 0xE000 then
          (decodeUtf16 rest2).map
            (fun l => (0x10000 + (u - 0xD800) * 0x400 + (u2 - 0xDC00)) :: l)
        else none
      | [] => none
    else none

/-- The Rust cast (i32 value) as usize on a 64-bit target: reduce the
two's-complement value modulo 2^64. -/
def usizeOfI32 (v : Int) : Nat := (v % 2 ^ 64).toNat

/-- Taking n bytes of the stream exactly, as io read_exact: fails when the
stream is shorter. -/
def readExact (n : Nat) (bs : List Nat) : Option (List Nat × List Nat) :=
  if n ≤ bs.length then some (bs.take n, bs.drop n) else none

/-- Reading a little-endian i32, as the i32 read_options calls in ty.rs. -/
def readI32 (bs : List Nat) : Option (Int × List Nat) :=
  match readExact 4 bs with
  | some (b4, rest) => some (asSigned 32 (fromLEBytes b4), rest)
  | none => none

/-- Embedding of the BinRead impl for WzStr (ty.rs lines 193-232) over a
byte stream, using the crypto stream transform parameterised by (E, iv).
A non-positive i8 flag selects the Latin-1 branch (flag -128 means a full
i32 length follows, cast to usize), a positive flag the UTF-16 branch
(flag 127 means a full i32 length follows).  The decoded string is
returned as its list of code points together with the unread rest. -/
def wzStrRead (E : List Nat → List Nat) (iv : List Nat) (bs : List Nat) :
    Option (List Nat × List Nat) :=
  match bs with
  | [] => none
  | b :: rest =>
    let flag := asSigned 8 b
    if flag ≤ 0 then
      let lnRes : Option (Nat × List Nat) :=
        if flag = -128 then
          match readI32 rest with
          | some (v, r) => some (usizeOfI32 v, r)
          | none => none
        else some ((-flag).toNat, rest)
      match lnRes with
      | none => none
      | some (ln, r1) =>
        match readExact ln r1 with
        | none => none
        | some (data, r2) =>
          some (transform E iv (xorMaskAscii data), r2)
    else
      let lnRes : Option (Nat × List Nat) :=
        if flag = 127 then
          match readI32 rest with
          | some (v, r) => some (usizeOfI32 v, r)
          | none => none
        else some (flag.toNat, rest)
      match lnRes with
      | none => none
      | some (ln, r1) =>
        match readExact (2 * ln) r1 with
        | none => none
        | some (dataBytes, r2) =>
          let units := bytesToU16 dataBytes
          let units1 := xorMaskUnicode units
          let units2 := bytesToU16 (transform E iv (u16ToBytes units1))
          match decodeUtf16 units2 with
          | none => none
          | some cps => some (cps, r2)

/-- Embedding of the BinWrite impl for WzStr (ty.rs lines 234-278): a pure
Latin-1 string is written with a negated i8 length (or the flag -128
followed by the NEGATED i32 length when the length is 128 or more) and a
transformed-then-masked Latin-1 body; any other string is written with an
i8 length (or the flag 127 followed by the plain i32 length when the
length is 127 or more) and a transformed-then-masked UTF-16LE body. -/
def wzStrWrite (E : List Nat → List Nat) (iv : List Nat) (cps : List Nat) :
    List Nat :=
  if cps.all (fun c => c ≤ 0xFF) then
    let data := cps
    let n := data.length
    let header : List Nat :=
      if 128 ≤ n then 128 :: toLEBytes 4 (((-(n : Int)) % 2 ^ 32).toNat)
      else [((-(n : Int)) % 256).toNat]
    header ++ xorMaskAscii (transform E iv data)
  else
    let units := encodeUtf16 cps
    let n := units.length
    let header : List Nat :=
      if 127 ≤ n then 127 :: toLEBytes 4 (n % 2 ^ 32)
      else [n]
    header ++ u16ToBytes (xorMaskUnicode (bytesToU16 (transform E iv (u16ToBytes units))))

theorem maskStreamAscii_length (n : Nat) : (maskStreamAscii n).length = n := by
  simp [maskStreamAscii]

theorem maskStreamUnicode_length (n : Nat) : (maskStreamUnicode n).length = n := by
  simp [maskStreamUnicode]

theorem xorMaskAscii_length (data : List Nat) :
    (xorMaskAscii data).length = data.length := by
  simp [xorMaskAscii, maskStreamAscii_length]

theorem xorMaskUnicode_length (units : List Nat) :
    (xorMaskUnicode units).length = units.length := by
  simp [xorMaskUnicode, maskStreamUnicode_length]

theorem xorMaskAscii_involutive (data : List Nat) :
    xorMaskAscii (xorMaskAscii data) = data := by
  unfold xorMaskAscii
  rw [show (List.zipWith Nat.xor data (maskStreamAscii data.length)).length
      = data.length from by simp [maskStreamAscii_length]]
  rw [zipWith_xor_xor_cancel, maskStreamAscii_length]
  exact List.take_of_length_le le_rfl

theorem xorMaskUnicode_involutive (units : List Nat) :
    xorMaskUnicode (xorMaskUnicode units) = units := by
  unfold xorMaskUnicode
  rw [show (List.zipWith Nat.xor units (maskStreamUnicode units.length)).length
      = units.length from by simp [maskStreamUnicode_length]]
  rw [zipWith_xor_xor_cancel, maskStreamUnicode_length]
  exact List.take_of_length_le le_rfl

theorem u16ToBytes_length (us : List Nat) : (u16ToBytes us).length = 2 * us.length := by
  induction us with
  | nil => simp [u16ToBytes]
  | cons u us ih =>
    simp [u16ToBytes] at ih ⊢
    omega

theorem bytesToU16_length (bs : List Nat) : (bytesToU16 bs).length = bs.length / 2 := by
  induction bs using bytesToU16.induct with
  | case1 => simp [bytesToU16]
  | case2 b => simp [bytesToU16]
  | case3 b0 b1 rest ih =>
    simp [bytesToU16, ih]
    omega

theorem bytesToU16_u16ToBytes (us : List Nat) (h : ∀ u ∈ us, u < 65536) :
    bytesToU16 (u16ToBytes us) = us := by
  induction us with
  | nil => simp [u16ToBytes, bytesToU16]
  | cons u us ih =>
    have hu : u < 65536 := h u (by simp)
    simp only [u16ToBytes, List.flatMap_cons, List.cons_append, List.nil_append]
    show bytesToU16 (u % 256 :: (u / 256) % 256 :: u16ToBytes us) = u :: us
    rw [bytesToU16]
    rw [ih (fun x hx => h x (by simp [hx]))]
    congr 1
    omega

theorem u16ToBytes_bytesToU16 (bs : List Nat) (heven : bs.length % 2 = 0)
    (hlt : ∀ b ∈ bs, b < 256) : u16ToBytes (bytesToU16 bs) = bs := by
  induction bs using bytesToU16.induct with
  | case3 b0 b1 rest ih =>
    rw [bytesToU16]
    simp only [u16ToBytes, List.flatMap_cons]
    show (b0 + 256 * b1) % 256 :: ((b0 + 256 * b1) / 256) % 256
        :: u16ToBytes (bytesToU16 rest) = b0 :: b1 :: rest
    rw [ih (by simp at heven ⊢; omega) (fun x hx => hlt x (by simp [hx]))]
    have hb0 : b0 < 256 := hlt b0 (by simp)
    have hb1 : b1 < 256 := hlt b1 (by simp)
    congr 2
    · omega
    · omega
  | case1 => simp [bytesToU16, u16ToBytes]
  | case2 b => simp at heven

theorem zipWith_xor_lt_pow (n : Nat) (a : List Nat) :
    ∀ b : List Nat, (∀ x ∈ a, x < 2 ^ n) → (∀ x ∈ b, x < 2 ^ n) →
    ∀ x ∈ List.zipWith Nat.xor a b, x < 2 ^ n := by
  induction a with
  | nil => simp
  | cons a0 a ih =>
    intro b ha hb
    cases b with
    | nil => simp
    | cons b0 b =>
      intro x hx
      simp only [List.zipWith_cons_cons, List.mem_cons] at hx
      rcases hx with rfl | hx
      · exact Nat.xor_lt_two_pow (ha a0 (by simp)) (hb b0 (by simp))
      · exact ih b (fun y hy => ha y (by simp [hy])) (fun y hy => hb y (by simp [hy])) x hx

theorem zipWith_xor_lt_256 (a b : List Nat) (ha : ∀ x ∈ a, x < 256)
    (hb : ∀ x ∈ b, x < 256) : ∀ x ∈ List.zipWith Nat.xor a b, x < 256 := by
  have h := zipWith_xor_lt_pow 8 a b (by simpa using ha) (by simpa using hb)
  simpa using h

theorem zipWith_xor_lt_65536 (a b : List Nat) (ha : ∀ x ∈ a, x < 65536)
    (hb : ∀ x ∈ b, x < 65536) : ∀ x ∈ List.zipWith Nat.xor a b, x < 65536 := by
  have h := zipWith_xor_lt_pow 16 a b (by simpa using ha) (by simpa using hb)
  simpa using h

theorem wzKeyBlocks_mem_lt (E : List Nat → List Nat)
    (HEv : ∀ b x, x ∈ E b → x < 256) (n : Nat) :
    ∀ iv blk, blk ∈ wzKeyBlocks E iv n → ∀ x ∈ blk, x < 256 := by
  induction n with
  | zero => simp [wzKeyBlocks]
  | succ n ih =>
    intro iv blk hblk
    simp only [wzKeyBlocks, List.mem_cons] at hblk
    rcases hblk with rfl | hblk
    · exact fun x hx => HEv iv x hx
    · exact ih (E iv) blk hblk

theorem xorKeyBuffer_mem_lt (E : List Nat → List Nat)
    (HEv : ∀ b x, x ∈ E b → x < 256) (iv : List Nat) :
    ∀ x ∈ xorKeyBuffer E iv, x < 256 := by
  intro x hx
  rw [xorKeyBuffer, List.mem_flatten] at hx
  obtain ⟨blk, hblk, hxblk⟩ := hx
  exact wzKeyBlocks_mem_lt E HEv 256 iv blk hblk x hxblk

theorem transformSmall_mem_lt (E : List Nat → List Nat)
    (HEv : ∀ b x, x ∈ E b → x < 256) (iv buf : List Nat)
    (hbuf : ∀ x ∈ buf, x < 256) : ∀ x ∈ transformSmall E iv buf, x < 256 := by
  apply zipWith_xor_lt_256 _ _ hbuf
  intro x hx
  exact xorKeyBuffer_mem_lt E HEv iv x (List.mem_of_mem_take hx)

theorem transformLargeGo_mem_lt (E : List Nat → List Nat)
    (HEv : ∀ b x, x ∈ E b → x < 256) :
    ∀ (n : Nat) (key buf : List Nat), buf.length ≤ n →
      (∀ x ∈ buf, x < 256) → ∀ x ∈ transformLargeGo E key buf, x < 256 := by
  intro n
  induction n with
  | zero =>
    intro key buf hb hbuf
    unfold transformLargeGo
    rw [if_pos (by omega)]
    apply zipWith_xor_lt_256 _ _ hbuf
    intro x hx
    exact HEv key x (List.mem_of_mem_take hx)
  | succ n ih =>
    intro key buf hb hbuf
    unfold transformLargeGo
    split
    · apply zipWith_xor_lt_256 _ _ hbuf
      intro x hx
      exact HEv key x (List.mem_of_mem_take hx)
    · rename_i hge
      intro x hx
      rw [List.mem_append] at hx
      rcases hx with hx | hx
      · exact zipWith_xor_lt_256 _ _
          (fun y hy => hbuf y (List.mem_of_mem_take hy))
          (fun y hy => HEv key y hy) x hx
      · exact ih (E key) (buf.drop 16) (by simp [List.length_drop]; omega)
          (fun y hy => hbuf y (List.mem_of_mem_drop hy)) x hx

theorem transform_mem_lt (E : List Nat → List Nat)
    (HEv : ∀ b x, x ∈ E b → x < 256) (iv buf : List Nat)
    (hbuf : ∀ x ∈ buf, x < 256) : ∀ x ∈ transform E iv buf, x < 256 := by
  unfold transform
  split
  · exact transformSmall_mem_lt E HEv iv buf hbuf
  · exact transformLargeGo_mem_lt E HEv buf.length iv buf le_rfl hbuf

theorem u16ToBytes_mem_lt (us : List Nat) : ∀ x ∈ u16ToBytes us, x < 256 := by
  induction us with
  | nil => simp [u16ToBytes]
  | cons u us ih =>
    intro x hx
    simp only [u16ToBytes, List.flatMap_cons, List.mem_append, List.mem_cons] at hx
    rcases hx with (rfl | rfl | h) | hx
    · exact Nat.mod_lt _ (by norm_num)
    · exact Nat.mod_lt _ (by norm_num)
    · simp at h
    · exact ih x hx

theorem bytesToU16_mem_lt (bs : List Nat) (hb : ∀ x ∈ bs, x < 256) :
    ∀ x ∈ bytesToU16 bs, x < 65536 := by
  induction bs using bytesToU16.induct with
  | case1 => simp [bytesToU16]
  | case2 b => simp [bytesToU16]
  | case3 b0 b1 rest ih =>
    intro x hx
    rw [bytesToU16] at hx
    rcases List.mem_cons.mp hx with rfl | hx
    · have h0 : b0 < 256 := hb b0 (by simp)
      have h1 : b1 < 256 := hb b1 (by simp)
      omega
    · exact ih (fun y hy => hb y (by simp [hy])) x hx

theorem maskStreamUnicode_mem_lt (n : Nat) : ∀ x ∈ maskStreamUnicode n, x < 65536 := by
  intro x hx
  simp only [maskStreamUnicode, List.mem_map] at hx
  obtain ⟨i, -, rfl⟩ := hx
  exact Nat.mod_lt _ (by norm_num)

theorem xorMaskUnicode_mem_lt (us : List Nat) (hu : ∀ x ∈ us, x < 65536) :
    ∀ x ∈ xorMaskUnicode us, x < 65536 :=
  zipWith_xor_lt_65536 _ _ hu (maskStreamUnicode_mem_lt _)

theorem encodeUtf16_bmp (cps : List Nat) (h : ∀ c ∈ cps, c < 65536) :
    encodeUtf16 cps = cps := by
  induction cps with
  | nil => simp [encodeUtf16]
  | cons c cps ih =>
    simp only [encodeUtf16, List.flatMap_cons] at ih ⊢
    rw [if_pos (h c (by simp)), ih (fun y hy => h y (by simp [hy]))]
    rfl

theorem decodeUtf16_scalars (cps : List Nat)
    (h : ∀ c ∈ cps, c < 0xD800 ∨ 0xE000 ≤ c) : decodeUtf16 cps = some cps := by
  induction cps with
  | nil => rfl
  | cons c cps ih =>
    unfold decodeUtf16
    rw [if_pos (h c (by simp))]
    rw [ih (fun y hy => h y (by simp [hy]))]
    rfl

theorem asSigned_of_lt (bits n : Nat) (h : n < 2 ^ (bits - 1)) :
    asSigned bits n = n := by
  unfold asSigned
  rw [if_pos h]

theorem wzStr_latin1_short_roundtrip (E : List Nat → List Nat) (iv : List Nat)
    (HE : ∀ b, (E b).length = 16) (cps : List Nat)
    (hlat : ∀ c ∈ cps, c ≤ 0xFF) (hlen : cps.length < 128) :
    wzStrRead E iv (wzStrWrite E iv cps) = some (cps, []) := by
  have hall : cps.all (fun c => c ≤ 0xFF) = true := by
    simp only [List.all_eq_true, decide_eq_true_eq]
    exact hlat
  have hbody : (xorMaskAscii (transform E iv cps)).length = cps.length := by
    rw [xorMaskAscii_length, transform_length E HE]
  have hwrite : wzStrWrite E iv cps
      = ((-(cps.length : Int)) % 256).toNat :: xorMaskAscii (transform E iv cps) := by
    unfold wzStrWrite
    rw [if_pos hall]
    show (if 128 ≤ cps.length then 128 :: toLEBytes 4 ((-(cps.length : Int)) % 2 ^ 32).toNat
        else [((-(cps.length : Int)) % 256).toNat]) ++ xorMaskAscii (transform E iv cps)
      = ((-(cps.length : Int)) % 256).toNat :: xorMaskAscii (transform E iv cps)
    rw [if_neg (by omega), List.singleton_append]
  rw [hwrite]
  have hflag : asSigned 8 (((-(cps.length : Int)) % 256).toNat) = -(cps.length : Int) :=
    asSigned8_wrap _ (by omega) (by omega)
  simp only [wzStrRead, hflag]
  rw [if_pos (by omega), if_neg (by omega)]
  simp only [Int.neg_neg, Int.toNat_natCast]
  unfold readExact
  rw [if_pos (by omega)]
  rw [List.take_of_length_le (by omega), List.drop_of_length_le (by omega)]
  show some (transform E iv (xorMaskAscii (xorMaskAscii (transform E iv cps))), ([] : List Nat))
      = some (cps, [])
  rw [xorMaskAscii_involutive, transform_transform E iv HE]

set_option maxRecDepth 8192 in
theorem wzStr_latin1_128_write_read_fails (E : List Nat → List Nat) (iv : List Nat) :
    wzStrRead E iv (wzStrWrite E iv (List.replicate 128 97)) = none := by
  have hall : (List.replicate 128 97).all (fun c => c ≤ 0xFF) = true := by
    simp only [List.all_eq_true, decide_eq_true_eq, List.mem_replicate]
    omega
  have hbodyle : (xorMaskAscii (transform E iv (List.replicate 128 97))).length ≤ 128 := by
    rw [xorMaskAscii_length]
    unfold transform
    rw [if_pos (by simp)]
    unfold transformSmall
    simp only [List.length_zipWith, List.length_take, List.length_replicate]
    omega
  have hwrite : wzStrWrite E iv (List.replicate 128 97)
      = 128 :: ([128, 255, 255, 255]
        ++ xorMaskAscii (transform E iv (List.replicate 128 97))) := by
    unfold wzStrWrite
    rw [if_pos hall]
    show (if 128 ≤ (List.replicate 128 97).length
        then 128 :: toLEBytes 4 ((-((List.replicate 128 97).length : Int)) % 2 ^ 32).toNat
        else [((-((List.replicate 128 97).length : Int)) % 256).toNat])
        ++ xorMaskAscii (transform E iv (List.replicate 128 97)) = _
    rw [if_pos (by simp)]
    simp only [List.length_replicate]
    rfl
  rw [hwrite]
  simp only [wzStrRead, show asSigned 8 128 = -128 from by decide]
  rw [if_pos (by omega)]
  simp only [if_true]
  have hr : readI32 ([128, 255, 255, 255]
      ++ xorMaskAscii (transform E iv (List.replicate 128 97)))
      = some (-128, xorMaskAscii (transform E iv (List.replicate 128 97))) := by
    unfold readI32 readExact
    rw [if_pos (by simp)]
    rw [List.take_append_of_le_length (by simp), List.drop_append_of_le_length (by simp)]
    have h32 : asSigned 32 (fromLEBytes [128, 255, 255, 255]) = -128 := by decide
    simp [h32]
  rw [hr]
  show (match readExact (usizeOfI32 (-128))
      (xorMaskAscii (transform E iv (List.replicate 128 97))) with
    | none => none
    | some (data, r2) =>
      some (transform E iv (xorMaskAscii data), r2)) = none
  rw [show usizeOfI32 (-128) = 18446744073709551488 from by decide]
  unfold readExact
  rw [if_neg (by omega)]

theorem utf16_decode_chain (E : List Nat → List Nat) (iv : List Nat)
    (HE : ∀ b, (E b).length = 16) (HEv : ∀ b x, x ∈ E b → x < 256)
    (cps : List Nat) (hbmp : ∀ c ∈ cps, c < 65536) :
    bytesToU16 (transform E iv (u16ToBytes (xorMaskUnicode (bytesToU16
      (u16ToBytes (xorMaskUnicode (bytesToU16
        (transform E iv (u16ToBytes cps))))))))) = cps := by
  have hTb : ∀ x ∈ transform E iv (u16ToBytes cps), x < 256 :=
    transform_mem_lt E HEv iv _ (u16ToBytes_mem_lt cps)
  have hX : ∀ x ∈ xorMaskUnicode (bytesToU16 (transform E iv (u16ToBytes cps))),
      x < 65536 :=
    xorMaskUnicode_mem_lt _ (bytesToU16_mem_lt _ hTb)
  rw [bytesToU16_u16ToBytes _ hX, xorMaskUnicode_involutive]
  have hTlen : (transform E iv (u16ToBytes cps)).length % 2 = 0 := by
    rw [transform_length E HE, u16ToBytes_length]
    omega
  rw [u16ToBytes_bytesToU16 _ hTlen hTb, transform_transform E iv HE,
    bytesToU16_u16ToBytes cps hbmp]

theorem usizeOfI32_natCast (n : Nat) (h : n < 2 ^ 63) : usizeOfI32 (n : Int) = n := by
  unfold usizeOfI32
  omega

theorem wzStr_utf16_roundtrip (E : List Nat → List Nat) (iv : List Nat)
    (HE : ∀ b, (E b).length = 16) (HEv : ∀ b x, x ∈ E b → x < 256)
    (cps : List Nat)
    (hscal : ∀ c ∈ cps, c < 0xD800 ∨ 0xE000 ≤ c)
    (hbmp : ∀ c ∈ cps, c < 65536)
    (hbig : ∃ c ∈ cps, 0xFF < c) (hlen : cps.length < 2 ^ 31) :
    wzStrRead E iv (wzStrWrite E iv cps) = some (cps, []) := by
  obtain ⟨c0, hc0, hc0gt⟩ := hbig
  have hnall : ¬ (cps.all (fun c => c ≤ 0xFF) = true) := by
    simp only [List.all_eq_true, decide_eq_true_eq]
    intro h
    exact absurd (h c0 hc0) (by omega)
  have hne : 1 ≤ cps.length := by
    cases cps
    · simp at hc0
    · simp
  set B := u16ToBytes (xorMaskUnicode (bytesToU16 (transform E iv (u16ToBytes cps))))
    with hBdef
  have hBlen : B.length = 2 * cps.length := by
    rw [hBdef, u16ToBytes_length, xorMaskUnicode_length, bytesToU16_length,
      transform_length E HE, u16ToBytes_length]
    omega
  have hwrite : wzStrWrite E iv cps
      = (if 127 ≤ cps.length then 127 :: toLEBytes 4 (cps.length % 2 ^ 32)
        else [cps.length]) ++ B := by
    unfold wzStrWrite
    rw [if_neg hnall, encodeUtf16_bmp cps hbmp]
  have hchain : bytesToU16 (transform E iv (u16ToBytes (xorMaskUnicode (bytesToU16 B))))
      = cps := by
    rw [hBdef]
    exact utf16_decode_chain E iv HE HEv cps hbmp
  have hread : readExact (2 * cps.length) B = some (B, []) := by
    unfold readExact
    rw [if_pos (by omega)]
    rw [List.take_of_length_le (by omega), List.drop_of_length_le (by omega)]
  rw [hwrite]
  by_cases h127 : 127 ≤ cps.length
  · rw [if_pos h127]
    have hA4 : (toLEBytes 4 (cps.length % 2 ^ 32)).length = 4 := toLEBytes_length _ _
    have hval : asSigned 32 (fromLEBytes (toLEBytes 4 (cps.length % 2 ^ 32)))
        = (cps.length : Int) := by
      rw [fromLEBytes_toLEBytes]
      rw [show (256 : Nat) ^ 4 = 2 ^ 32 from by norm_num]
      rw [show cps.length % 2 ^ 32 % 2 ^ 32 = cps.length from by omega]
      exact asSigned_of_lt 32 cps.length (by omega)
    have hr : readI32 (toLEBytes 4 (cps.length % 2 ^ 32) ++ B)
        = some ((cps.length : Int), B) := by
      unfold readI32 readExact
      rw [if_pos (by rw [List.length_append, hA4]; omega)]
      rw [List.take_append_of_le_length (by rw [hA4]),
        List.drop_append_of_le_length (by rw [hA4])]
      rw [List.take_of_length_le (le_of_eq hA4),
        List.drop_of_length_le (le_of_eq hA4)]
      have hval4 : asSigned 32 (fromLEBytes (toLEBytes 4 (cps.length % 4294967296)))
          = (cps.length : Int) := by
        rw [show (4294967296 : Nat) = 2 ^ 32 from by norm_num]
        exact hval
      simp [hval4]
    simp only [List.cons_append]
    simp only [wzStrRead, show asSigned 8 127 = 127 from by decide]
    simp only [show ((127 : Int) ≤ 0) = False from by norm_num, if_false, if_true]
    rw [hr]
    simp only [usizeOfI32_natCast cps.length (by omega)]
    rw [hread]
    simp only [hchain, decodeUtf16_scalars cps hscal]
  · rw [if_neg h127]
    simp only [List.singleton_append]
    have hflag : asSigned 8 cps.length = (cps.length : Int) :=
      asSigned_of_lt 8 cps.length (by omega)
    simp only [wzStrRead, hflag]
    rw [if_neg (by omega), if_neg (by omega)]
    simp only [Int.toNat_natCast]
    rw [hread]
    simp only [hchain, decodeUtf16_scalars cps hscal]

/-- C4: the WzStr write/read pair round-trips for pure Latin-1 strings
shorter than 128 characters and for UTF-16 (BMP, non-Latin-1) strings of
any length below 2^31, but NOT for Latin-1 strings of length 128 or more:
the write path stores the NEGATED i32 length after the -128 flag
(ty.rs line 251), while the read path casts the stored i32 to usize
(ty.rs line 204), so reading the written bytes of a 128-character Latin-1
string demands 2^64 - 128 body bytes and fails.  The first two conjuncts
are the working cases, the third evaluates the write-then-read pipeline at
the failing input. -/
theorem c4_wzstr_roundtrip_and_failure :
    (∀ (E : List Nat → List Nat) (iv : List Nat), (∀ b, (E b).length = 16) →
      ∀ cps : List Nat, (∀ c ∈ cps, c ≤ 0xFF) → cps.length < 128 →
        wzStrRead E iv (wzStrWrite E iv cps) = some (cps, []))
  ∧ (∀ (E : List Nat → List Nat) (iv : List Nat), (∀ b, (E b).length = 16) →
      (∀ b x, x ∈ E b → x < 256) →
      ∀ cps : List Nat, (∀ c ∈ cps, c < 0xD800 ∨ 0xE000 ≤ c) →
        (∀ c ∈ cps, c < 65536) → (∃ c ∈ cps, 0xFF < c) → cps.length < 2 ^ 31 →
        wzStrRead E iv (wzStrWrite E iv cps) = some (cps, []))
  ∧ (∀ (E : List Nat → List Nat) (iv : List Nat),
      wzStrRead E iv (wzStrWrite E iv (List.replicate 128 97)) = none) := by
  refine ⟨?_, ?_, ?_⟩
  · intro E iv HE cps hlat hlen
    exact wzStr_latin1_short_roundtrip E iv HE cps hlat hlen
  · intro E iv HE HEv cps hscal hbmp hbig hlen
    exact wzStr_utf16_roundtrip E iv HE HEv cps hscal hbmp hbig hlen
  · intro E iv
    exact wzStr_latin1_128_write_read_fails E iv

/-- Witness for C4 at concrete inputs: the two-character Latin-1 string
"hi", the one-character BMP string U+012C, and the 128-character Latin-1
failing input. -/
theorem c4_wzstr_roundtrip_and_failure_witness :
    wzStrRead (fun _ => List.range 16) []
      (wzStrWrite (fun _ => List.range 16) [] [104, 105]) = some ([104, 105], [])
  ∧ wzStrRead (fun _ => List.range 16) []
      (wzStrWrite (fun _ => List.range 16) [] [300]) = some ([300], [])
  ∧ wzStrRead (fun _ => List.range 16) []
      (wzStrWrite (fun _ => List.range 16) [] (List.replicate 128 97)) = none := by
  obtain ⟨h1, h2, h3⟩ := c4_wzstr_roundtrip_and_failure
  refine ⟨h1 _ _ (fun _ => by simp) [104, 105] (by decide) (by decide),
    h2 _ _ (fun _ => by simp) (fun b x hx => by simp at hx; omega) [300]
      (by decide) (by decide) (by decide) (by decide),
    h3 _ _⟩

/-! ## Layer-0 directory entries (l0/mod.rs) -/

/-- Parsed WzImgHeader (l0/mod.rs lines 38-48): name, blob size, checksum
and decrypted offset.  Strings are lists of characters. -/
structure WzImgHeader where
  name : List Char
  blobSize : Int
  checksum : Int
  offset : Nat
deriving DecidableEq

/-- Parsed WzDirHeader (l0/mod.rs lines 50-60). -/
structure WzDirHeader where
  name : List Char
  blobSize : Int
  checksum : Int
  offset : Nat
deriving DecidableEq

/-- Parsed WzLinkData (l0/mod.rs lines 73-77): the raw link offset and the
image header resolved by following it. -/
structure WzLinkData where
  offset : Nat
  linkImg : WzImgHeader
deriving DecidableEq

/-- Parsed WzLinkHeader (l0/mod.rs lines 119-129). -/
structure WzLinkHeader where
  link : WzLinkData
  blobSize : Int
  checksum : Int
  offset : Nat
deriving DecidableEq

/-- Parsed WzDirNode (l0/mod.rs lines 131-143), tagged 1 = Nil (ten raw
bytes), 2 = Link, 3 = Dir, 4 = Img. -/
inductive WzDirNode where
  | nil (bytes10 : List Nat)
  | link (h : WzLinkHeader)
  | dir (h : WzDirHeader)
  | img (h : WzImgHeader)
deriving DecidableEq

/-- Parsed WzDir (l0/mod.rs lines 19-25): a vector of entries. -/
structure WzDir where
  entries : List WzDirNode

/-- Embedding of WzDir::get (l0/mod.rs lines 27-36): find the first entry
matching the name; Nil and Link entries never match. -/
def WzDir.get (d : WzDir) (name : List Char) : Option WzDirNode :=
  d.entries.find? (fun e =>
    match e with
    | WzDirNode.nil _ => false
    | WzDirNode.link _ => false
    | WzDirNode.dir dh => dh.name = name
    | WzDirNode.img ih => ih.name = name)

/-- C10: WzDir::get returns an entry only when it is a Dir or Img entry
whose own name equals the query; Nil and Link entries are never returned,
so a directory holding only Nil and Link entries answers no query, even
when a linked image's name matches. -/
theorem c10_wzdir_get_dir_or_img_only :
    (∀ (d : WzDir) (name : List Char) (e : WzDirNode), d.get name = some e →
      (∃ h, e = WzDirNode.dir h ∧ h.name = name)
      ∨ (∃ h, e = WzDirNode.img h ∧ h.name = name))
  ∧ (∀ (d : WzDir) (name : List Char),
      (∀ e ∈ d.entries, (∃ bs, e = WzDirNode.nil bs) ∨ ∃ h, e = WzDirNode.link h) →
      d.get name = none) := by
  constructor
  · intro d name e he
    have hp := List.find?_some he
    cases e with
    | nil bs => simp at hp
    | link h => simp at hp
    | dir h =>
      left
      refine ⟨h, rfl, ?_⟩
      simpa using hp
    | img h =>
      right
      refine ⟨h, rfl, ?_⟩
      simpa using hp
  · intro d name honly
    apply List.find?_eq_none.mpr
    intro e he
    rcases honly e he with ⟨bs, rfl⟩ | ⟨h, rfl⟩ <;> simp

/-- Witness for C10: a directory holding one link entry whose resolved
image is named X.img answers no lookup for X.img, and a Dir entry is
returned only with a matching name. -/
theorem c10_wzdir_get_dir_or_img_only_witness :
    WzDir.get ⟨[WzDirNode.link ⟨⟨7, ⟨"X.img".toList, 1, 1, 60⟩⟩, 1, 1, 60⟩]⟩
      "X.img".toList = none
  ∧ ((∃ h, WzDirNode.img ⟨"a".toList, 1, 1, 60⟩ = WzDirNode.dir h ∧ h.name = "a".toList)
      ∨ (∃ h, WzDirNode.img ⟨"a".toList, 1, 1, 60⟩ = WzDirNode.img h
          ∧ h.name = "a".toList)) := by
  obtain ⟨h1, h2⟩ := c10_wzdir_get_dir_or_img_only
  refine ⟨h2 _ _ ?_, h1 ⟨[WzDirNode.img ⟨"a".toList, 1, 1, 60⟩]⟩ "a".toList _ (by decide)⟩
  intro e he
  simp at he
  subst he
  right
  exact ⟨_, rfl⟩

/-! ## Layer-1 canvas header (l1/canvas.rs) and sound descriptor
(l1/sound.rs, the fields the value model uses) -/

/-- The canvas depth tags of l1/canvas.rs WzCanvasDepth. -/
inductive WzCanvasDepth where
  | bgra4444
  | bgra8888
  | bgr565
  | dxt3
  | dxt5
deriving DecidableEq

/-- Embedding of WzCanvasDepth::depth_size (l1/canvas.rs lines 46-55). -/
def WzCanvasDepth.depth_size : WzCanvasDepth → Nat
  | .bgra4444 => 2
  | .bgra8888 => 4
  | .bgr565 => 2
  | .dxt3 => 1
  | .dxt5 => 1

/-- The u32 reading of an i32 field value, as the Rust cast v as u32. -/
def u32OfI32 (v : Int) : Nat := (v % 2 ^ 32).toNat

/-- Parsed WzCanvas header (l1/canvas.rs lines 84-103).  The optional
embedded property is not represented here: no arithmetic of the canvas
decoder depends on it (the value model keeps it separately as the sub
value).  The scale byte is validated at parse time to be 0 or 4
(WzCanvasScaling TryFrom), the width and height are WzInt (i32), len is a
position-tagged u32. -/
structure WzCanvas where
  unknown : Nat
  hasProperty : Nat
  width : Int
  height : Int
  depth : WzCanvasDepth
  scale : Nat
  unknown1 : Nat
  lenVal : Nat
  lenPos : Nat
deriving DecidableEq

/-- Embedding of WzCanvasScaling::factor (l1/canvas.rs lines 13-17):
2 to the scale. -/
def scaleFactor (scale : Nat) : Nat := 1 <<< scale

/-- Embedding of WzCanvas::width (l1/canvas.rs lines 118-120). -/
def WzCanvas.widthU (c : WzCanvas) : Nat := u32OfI32 c.width

/-- Embedding of WzCanvas::height (l1/canvas.rs lines 114-116). -/
def WzCanvas.heightU (c : WzCanvas) : Nat := u32OfI32 c.height

/-- Embedding of WzCanvas::raw_width (l1/canvas.rs lines 126-128). -/
def WzCanvas.raw_width (c : WzCanvas) : Nat := c.widthU / scaleFactor c.scale

/-- Embedding of WzCanvas::raw_height (l1/canvas.rs lines 122-124). -/
def WzCanvas.raw_height (c : WzCanvas) : Nat := c.heightU / scaleFactor c.scale

/-- Embedding of WzCanvas::raw_pixels (l1/canvas.rs lines 110-112). -/
def WzCanvas.raw_pixels (c : WzCanvas) : Nat := c.raw_width * c.raw_height

/-- Embedding of WzCanvas::raw_bitmap_size (l1/canvas.rs lines 134-136). -/
def WzCanvas.raw_bitmap_size (c : WzCanvas) : Nat := c.raw_pixels * c.depth.depth_size

/-- Parsed WzSound descriptor (l1/sound.rs lines 254-263): the unknown
byte, the payload size and length in milliseconds (both WzInt), and the
payload start position.  The parsed media header is not represented: the
JSON serializer and the play-time accessor do not consult it. -/
structure WzSound where
  unknown : Nat
  size : Int
  lenMs : Int
  offsetPos : Nat
deriving DecidableEq

/-! ## Value model and JSON codec (val.rs) -/

/-- serde_json number values: deserialize_any hands non-negative integers
to visit_u64, negative integers to visit_i64 and floats to visit_f64.
Floats are carried as the 64-bit pattern of the f64; finite patterns
round-trip exactly through the shortest-decimal printer and parser. -/
inductive JNum where
  | posInt (n : Nat)
  | negInt (n : Int)
  | float (bits : Nat)
deriving DecidableEq

/-- The JSON value tree produced and consumed by serde_json.  Object
fields keep document order: the serializer walks the IndexMap in insertion
order and deserialize_any streams key-value pairs to the visitor in
document order. -/
inductive Json where
  | null
  | bool (b : Bool)
  | num (n : JNum)
  | str (s : String)
  | arr (elems : List Json)
  | obj (fields : List (String × Json))

/-- Embedding of the WzValue tree (val.rs lines 203-218).  Floats are
carried as raw bit patterns (f32: 32 bits, f64: 64 bits); equality of bit
patterns refines the Rust PartialEq on the underlying floats for the
finite values the JSON codec handles. -/
inductive WzValue where
  | object (entries : List (String × WzValue))
  | null
  | f32 (bits : Nat)
  | f64 (bits : Nat)
  | short (v : Int)
  | int (v : Int)
  | long (v : Int)
  | str (s : String)
  | vec (x y : Int)
  | convex (vs : List (Int × Int))
  | sound (s : WzSound)
  | canvas (c : WzCanvas) (sub : Option WzValue)
  | link (s : String)

/-- Finiteness of an f64 bit pattern: the exponent field is not all ones. -/
def f64IsFinite (bits : Nat) : Bool := (bits / 2 ^ 52) % 2 ^ 11 != 2047

/-- Finiteness of an f32 bit pattern. -/
def f32IsFinite (bits : Nat) : Bool := (bits / 2 ^ 23) % 2 ^ 8 != 255

/-- Bit-level IEEE widening of an f32 pattern to the f64 pattern, the
conversion the external serde_json serializer applies to f32 values
before printing. -/
def f32BitsToF64Bits (b0 : Nat) : Nat :=
  let b := b0 % 2 ^ 32
  let sign := b / 2 ^ 31
  let expo := (b / 2 ^ 23) % 2 ^ 8
  let frac := b % 2 ^ 23
  if expo = 255 then sign * 2 ^ 63 + 2047 * 2 ^ 52 + frac * 2 ^ 29
  else if expo = 0 then
    if frac = 0 then sign * 2 ^ 63
    else
      let k := 23 - Nat.log2 frac
      let frac2 := (frac <<< k) % 2 ^ 23
      sign * 2 ^ 63 + (897 - k + 23 - 23) * 2 ^ 52 + frac2 * 2 ^ 29
  else sign * 2 ^ 63 + (expo - 127 + 1023) * 2 ^ 52 + frac * 2 ^ 29

/-- serde serialization of a signed integer into a serde_json number. -/
def serializeIntNum (v : Int) : Json :=
  if 0 ≤ v then Json.num (JNum.posInt v.toNat) else Json.num (JNum.negInt v)

mutual

/-- Embedding of the Serialize impl for WzValue (val.rs lines 446-468)
together with the Serialize impls of ObjectVal (derived, val.rs line 153),
Vec2Val (lines 105-114), Vex2Val (lines 143-151), CanvasVal (lines 37-50)
and the handwritten Sound arm, which serializes the fixed string SOUND
(val.rs line 459) rather than invoking the Serialize impl of SoundVal. -/
def serializeWzValue : WzValue → Json
  | .object entries => Json.obj (serializeEntries entries)
  | .null => Json.null
  | .f32 bits =>
    if f32IsFinite bits then Json.num (JNum.float (f32BitsToF64Bits bits)) else Json.null
  | .f64 bits => if f64IsFinite bits then Json.num (JNum.float bits) else Json.null
  | .short v => serializeIntNum v
  | .int v => serializeIntNum v
  | .long v => serializeIntNum v
  | .str s => Json.str s
  | .vec x y =>
    Json.obj [("$type", Json.str "vec2"), ("x", serializeIntNum x), ("y", serializeIntNum y)]
  | .convex vs =>
    Json.obj [("$type", Json.str "vex2"), ("vex", Json.arr (serializeVecList vs))]
  | .sound _ => Json.str "SOUND"
  | .canvas c sub =>
    Json.obj [("$ty", Json.str "canvas"), ("scale", Json.num (JNum.posInt c.scale)),
      ("sub", serializeOptWzValue sub)]
  | .link s => Json.obj [("$type", Json.str "link"), ("$link", Json.str s)]

def serializeEntries : List (String × WzValue) → List (String × Json)
  | [] => []
  | (k, v) :: rest => (k, serializeWzValue v) :: serializeEntries rest

def serializeVecList : List (Int × Int) → List Json
  | [] => []
  | (x, y) :: rest =>
    Json.obj [("$type", Json.str "vec2"), ("x", serializeIntNum x), ("y", serializeIntNum y)]
      :: serializeVecList rest

def serializeOptWzValue : Option WzValue → Json
  | none => Json.null
  | some v => serializeWzValue v

end

/-- Embedding of the Serialize impl for SoundVal (val.rs lines 75-87):
the map with the ty marker sound and the play time in milliseconds; the
audio bytes do not appear. -/
def serializeSoundVal (s : WzSound) : Json :=
  Json.obj [("$ty", Json.str "sound"), ("playTime", serializeIntNum s.lenMs)]

/-- IndexMap::insert: replace the value in place when the key is present,
append otherwise. -/
def insertIdx (m : List (String × WzValue)) (k : String) (v : WzValue) :
    List (String × WzValue) :=
  match m with
  | [] => [(k, v)]
  | (k0, v0) :: rest => if k0 = k then (k0, v) :: rest else (k0, v0) :: insertIdx rest k v

/-- serde_json deserialization of an i32 from a JSON value: an integer
number within the i32 range, anything else is an error. -/
def jsonToI32 (j : Json) : Option Int :=
  match j with
  | Json.num (JNum.posInt n) => if n < 2 ^ 31 then some (n : Int) else none
  | Json.num (JNum.negInt n) => if -(2 ^ 31) ≤ n then some n else none
  | _ => none

mutual

/-- Embedding of the Deserialize impl for WzValue (val.rs lines 680-684)
driven by serde_json deserialize_any over the WzValueVisitor (val.rs
lines 497-678): null goes to the unimplemented visit_unit and errors;
booleans become Int 0 or 1; non-negative integers reach visit_u64 and
negative ones visit_i64, both producing Long; floats reach visit_f64 and
produce F64; strings produce String; sequences error; a map dispatches on
a first key equal to the marker type (link, vec2; vex2 hits a todo panic),
and any other map is rebuilt as an Object by IndexMap inserts, erroring on
an empty map since the first next_key is mandatory. -/
def deserializeJson : Json → Option WzValue
  | .null => none
  | .bool b => some (.int (if b then 1 else 0))
  | .num (JNum.posInt n) => some (.long (if n < 2 ^ 63 then (n : Int) else (n : Int) - 2 ^ 64))
  | .num (JNum.negInt n) => some (.long n)
  | .num (JNum.float bits) => some (.f64 bits)
  | .str s => some (.str s)
  | .arr _ => none
  | .obj [] => none
  | .obj ((k0, v0) :: rest) =>
    if k0 = "$type" then
      match v0 with
      | Json.str ty =>
        if ty = "link" then
          match rest with
          | (_, Json.str l) :: rest2 =>
            match rest2 with
            | [] => some (.link l)
            | _ => none
          | _ => none
        else if ty = "vec2" then
          match rest with
          | (kx, vx) :: (ky, vy) :: rest2 =>
            if kx = "x" then
              match jsonToI32 vx with
              | some x =>
                if ky = "y" then
                  match jsonToI32 vy with
                  | some y =>
                    match rest2 with
                    | [] => some (.vec x y)
                    | _ => none
                  | none => none
                else none
              | none => none
            else none
          | _ => none
        else none
      | _ => none
    else
      match deserializeJson v0 with
      | none => none
      | some w0 =>
        match deserializeEntries rest with
        | none => none
        | some ws =>
          some (.object (ws.foldl (fun m kv => insertIdx m kv.1 kv.2) [(k0, w0)]))

/-- The while-let loop of visit_map (val.rs lines 673-675): deserialize
every remaining entry value in document order. -/
def deserializeEntries : List (String × Json) → Option (List (String × WzValue))
  | [] => some []
  | (k, v) :: rest =>
    match deserializeJson v with
    | none => none
    | some w =>
      match deserializeEntries rest with
      | none => none
      | some ws => some ((k, w) :: ws)

end

theorem insertIdx_append (m : List (String × WzValue)) (k : String) (v : WzValue)
    (h : ∀ e ∈ m, e.1 ≠ k) : insertIdx m k v = m ++ [(k, v)] := by
  induction m with
  | nil => rfl
  | cons e rest ih =>
    obtain ⟨k0, v0⟩ := e
    unfold insertIdx
    rw [if_neg (h (k0, v0) (by simp))]
    rw [ih (fun e he => h e (by simp [he]))]
    simp

theorem foldl_insertIdx (ws : List (String × WzValue)) :
    ∀ acc : List (String × WzValue),
    (∀ e ∈ ws, ∀ a ∈ acc, a.1 ≠ e.1) → (ws.map Prod.fst).Nodup →
    ws.foldl (fun m kv => insertIdx m kv.1 kv.2) acc = acc ++ ws := by
  induction ws with
  | nil => intro acc _ _; simp
  | cons e ws ih =>
    intro acc hdisj hnd
    obtain ⟨k, w⟩ := e
    simp only [List.map_cons, List.nodup_cons] at hnd
    simp only [List.foldl_cons]
    rw [insertIdx_append acc k w (fun a ha => hdisj (k, w) (by simp) a ha)]
    rw [ih (acc ++ [(k, w)]) ?hdisj hnd.2]
    · simp
    case hdisj =>
      intro e he a ha
      rcases List.mem_append.mp ha with ha | ha
      · exact hdisj e (by simp [he]) a ha
      · simp at ha
        subst ha
        show k ≠ e.1
        intro hkk
        exact hnd.1 (by rw [hkk]; exact List.mem_map_of_mem Prod.fst he)

theorem jsonToI32_serializeIntNum (x : Int) (h1 : -(2 ^ 31) ≤ x) (h2 : x < 2 ^ 31) :
    jsonToI32 (serializeIntNum x) = some x := by
  unfold serializeIntNum
  by_cases h0 : 0 ≤ x
  · rw [if_pos h0]
    simp only [jsonToI32]
    rw [if_pos (by omega)]
    simp [Int.toNat_of_nonneg h0]
  · rw [if_neg h0]
    simp only [jsonToI32]
    rw [if_pos h1]

theorem deserializeEntries_serializeEntries (l : List (String × WzValue))
    (h : ∀ e ∈ l, deserializeJson (serializeWzValue e.2) = some e.2) :
    deserializeEntries (serializeEntries l) = some l := by
  induction l with
  | nil => rfl
  | cons e rest ih =>
    obtain ⟨k, v⟩ := e
    rw [serializeEntries, deserializeEntries]
    rw [h (k, v) (by simp)]
    rw [ih (fun e he => h e (by simp [he]))]

/-- The subset of WzValue on which the JSON codec round-trips: nonempty
objects with distinct keys whose first key is not the dispatch marker,
i64 longs, finite f64 values, strings, i32 vectors and links. -/
inductive SafeVal : WzValue → Prop where
  | object (k0 : String) (v0 : WzValue) (rest : List (String × WzValue)) :
      k0 ≠ "$type" →
      (((k0, v0) :: rest).map Prod.fst).Nodup →
      SafeVal v0 → (∀ e ∈ rest, SafeVal e.2) →
      SafeVal (.object ((k0, v0) :: rest))
  | long (v : Int) : -(2 ^ 63) ≤ v → v < 2 ^ 63 → SafeVal (.long v)
  | f64 (bits : Nat) : f64IsFinite bits = true → SafeVal (.f64 bits)
  | str (s : String) : SafeVal (.str s)
  | vec (x y : Int) : -(2 ^ 31) ≤ x → x < 2 ^ 31 → -(2 ^ 31) ≤ y → y < 2 ^ 31 →
      SafeVal (.vec x y)
  | link (s : String) : SafeVal (.link s)

theorem safeVal_roundtrip : ∀ v : WzValue, SafeVal v →
    deserializeJson (serializeWzValue v) = some v := by
  intro v hs
  induction hs with
  | object k0 v0 rest hk hnd hs0 hrest ih0 ihrest =>
    simp only [serializeWzValue, serializeEntries]
    simp only [deserializeJson]
    rw [if_neg hk, ih0]
    rw [deserializeEntries_serializeEntries rest ihrest]
    simp only [List.map_cons, List.nodup_cons] at hnd
    show some (WzValue.object (List.foldl (fun m kv => insertIdx m kv.1 kv.2) [(k0, v0)] rest))
        = some (WzValue.object ((k0, v0) :: rest))
    rw [foldl_insertIdx rest [(k0, v0)] ?hdisj hnd.2]
    · simp
    case hdisj =>
      intro e he a ha
      simp at ha
      subst ha
      show k0 ≠ e.1
      intro hkk
      exact hnd.1 (by rw [hkk]; exact List.mem_map_of_mem Prod.fst he)
  | long v h1 h2 =>
    simp only [serializeWzValue, serializeIntNum]
    by_cases h0 : 0 ≤ v
    · rw [if_pos h0]
      simp only [deserializeJson]
      rw [if_pos (by omega)]
      simp [Int.toNat_of_nonneg h0]
    · rw [if_neg h0]
      simp only [deserializeJson]
  | f64 bits hf =>
    simp only [serializeWzValue]
    rw [if_pos hf]
    simp only [deserializeJson]
  | str s => simp only [serializeWzValue, deserializeJson]
  | vec x y h1 h2 h3 h4 =>
    simp only [serializeWzValue, deserializeJson]
    simp only [if_true]
    rw [if_neg (show ¬ ("vec2" = "link") from by decide)]
    simp only [if_true, jsonToI32_serializeIntNum x h1 h2,
      jsonToI32_serializeIntNum y h3 h4]
  | link s =>
    simp only [serializeWzValue, deserializeJson]
    simp only [if_true]

/-! ## Claim theorems: C6 and C9 -/

/-- C6 counterexample: the JSON round-trip is not the identity on objects
containing every scalar variant, nor on the empty object: an object with
a Short comes back with a Long in its place, and serializing the empty
object yields a JSON map whose deserialization errors (the visitor
requires a first key). -/
theorem c6_json_roundtrip_counterexample :
    deserializeJson (serializeWzValue (.object [("a", .short 1)]))
      = some (.object [("a", .long 1)])
  ∧ WzValue.object [("a", .long 1)] ≠ WzValue.object [("a", .short 1)]
  ∧ deserializeJson (serializeWzValue (.object [])) = none := by
  refine ⟨?_, ?_, ?_⟩
  · simp [serializeWzValue, serializeEntries, serializeIntNum, deserializeJson,
      deserializeEntries, insertIdx]
  · simp
  · simp [serializeWzValue, serializeEntries, deserializeJson]

/-- C6 amended: the JSON round-trip is the identity on values built from
nonempty objects with distinct keys whose first key is not the dispatch
marker, i64 longs, finite f64 values, strings, i32 vectors, links and
such nested objects; a Short or Int comes back as a Long of the same
value, and an object holding Null (serialized as JSON null) or the empty
object fails to deserialize. -/
theorem c6_json_roundtrip_amended :
    (∀ v : WzValue, SafeVal v → deserializeJson (serializeWzValue v) = some v)
  ∧ deserializeJson (serializeWzValue (.object [("a", .int 2)]))
      = some (.object [("a", .long 2)])
  ∧ deserializeJson (serializeWzValue (.object [("b", .null)])) = none := by
  refine ⟨safeVal_roundtrip, ?_, ?_⟩
  · simp [serializeWzValue, serializeEntries, serializeIntNum, deserializeJson,
      deserializeEntries, insertIdx]
  · simp [serializeWzValue, serializeEntries, deserializeJson, deserializeEntries]

/-- Witness for C6 amended at the repository's own test value: an object
holding one link under the key mylink. -/
theorem c6_json_roundtrip_amended_witness :
    deserializeJson (serializeWzValue (.object [("mylink", .link "Link")]))
      = some (.object [("mylink", .link "Link")]) :=
  c6_json_roundtrip_amended.1 _
    (SafeVal.object "mylink" (.link "Link") [] (by decide) (by simp)
      (SafeVal.link "Link") (by simp))

/-- C9 counterexample: serializing a Sound value of the value model
(WzValue::Sound) emits the JSON string SOUND (val.rs line 459), not the
claimed play-time map. -/
theorem c9_sound_serialization_counterexample :
    serializeWzValue (.sound ⟨1, 100, 1000, 50⟩) = Json.str "SOUND"
  ∧ Json.str "SOUND"
      ≠ Json.obj [("$ty", Json.str "sound"), ("playTime", Json.num (JNum.posInt 1000))] := by
  constructor
  · simp [serializeWzValue]
  · simp

/-- C9 amended: the WzValue serializer maps every Sound variant to the
JSON string SOUND, while the bypassed Serialize impl of SoundVal is the
one that produces the map with the ty marker sound and playTime holding
the length in milliseconds; neither serializes the audio bytes. -/
theorem c9_sound_serialization_amended :
    (∀ s : WzSound, serializeWzValue (.sound s) = Json.str "SOUND")
  ∧ (∀ s : WzSound, 0 ≤ s.lenMs →
      serializeSoundVal s
        = Json.obj [("$ty", Json.str "sound"),
            ("playTime", Json.num (JNum.posInt s.lenMs.toNat))]) := by
  constructor
  · intro s
    simp [serializeWzValue]
  · intro s h
    simp [serializeSoundVal, serializeIntNum, if_pos h]

/-- Witness for C9 amended at a sound of 1000 milliseconds. -/
theorem c9_sound_serialization_amended_witness :
    serializeSoundVal ⟨1, 100, 1000, 50⟩
      = Json.obj [("$ty", Json.str "sound"), ("playTime", Json.num (JNum.posInt 1000))] :=
  c9_sound_serialization_amended.2 ⟨1, 100, 1000, 50⟩ (by norm_num)

/-! ## Canvas RGBA conversion (canvas.rs) -/

/-- RGBA image of the external image crate: dimensions and byte buffer. -/
structure RgbaImage where
  width : Nat
  height : Nat
  data : List Nat

/-- Embedding of bit_pix (canvas.rs lines 7-11): select N bits at the
shift, truncate to u8, expand with the step 2 to the (8 - N). -/
def bit_pix (N v shift : Nat) : Nat :=
  let mask := (1 <<< N) - 1
  let m := 1 <<< (8 - N)
  (((v >>> shift) &&& mask) % 256) * m

/-- Embedding of bgra4_to_rgba8 (canvas.rs lines 13-20). -/
def bgra4_to_rgba8 (v : Nat) : List Nat :=
  [bit_pix 4 v 8, bit_pix 4 v 4, bit_pix 4 v 0, bit_pix 4 v 12]

/-- Embedding of bgr565_to_rgba8 (canvas.rs lines 22-28). -/
def bgr565_to_rgba8 (v : Nat) : List Nat :=
  [bit_pix 5 v 11, bit_pix 6 v 5, bit_pix 5 v 0, 0xFF]

/-- Embedding of bgra8_to_rgba8 (canvas.rs lines 30-32): the four
little-endian bytes of the u32 as RGBA. -/
def bgra8_to_rgba8 (v : Nat) : List Nat := toLEBytes 4 v

/-- u32 values from their little-endian byte view (bytemuck cast_slice to
u32 in canvas.rs). -/
def bytesToU32 : List Nat → List Nat
  | b0 :: b1 :: b2 :: b3 :: rest => (b0 + 256 * (b1 + 256 * (b2 + 256 * b3))) :: bytesToU32 rest
  | _ => []

/-- Option-valued traversal in order; models the pixel generation of
RgbaImage::from_fn where an out-of-bounds index in the callback panics. -/
def optTraverse (f : α → Option β) : List α → Option (List β)
  | [] => some []
  | a :: rest =>
    match f a with
    | none => none
    | some b =>
      match optTraverse f rest with
      | none => none
      | some bs => some (b :: bs)

/-- Model of RgbaImage::from_fn: generate the pixels row-major; any panic
inside the callback is an error. -/
def rgbaFromFn (w h : Nat) (f : Nat → Nat → Option (List Nat)) : Option RgbaImage :=
  match optTraverse (fun y => optTraverse (fun x => f x y) (List.range w)) (List.range h) with
  | none => none
  | some rows => some ⟨w, h, (rows.map List.flatten).flatten⟩

/-- Model of RgbaImage::from_raw: fails when the buffer is smaller than
width * height * 4, keeps the buffer otherwise. -/
def rgbaFromRaw (w h : Nat) (buf : List Nat) : Option RgbaImage :=
  if w * h * 4 ≤ buf.length then some ⟨w, h, buf⟩ else none

/-- Interface-level model of the external texpresso block decompressor:
it reads one 16-byte block per 4x4 tile from the input (indexing past the
end panics, modelled as none) and fills the supplied output buffer in
place; the decoded pixel values themselves are not modelled, since no
claim depends on them, so the filled buffer is returned as given. -/
def texpressoDecompress (data : List Nat) (w h : Nat) (out : List Nat) :
    Option (List Nat) :=
  if ((w + 3) / 4) * ((h + 3) / 4) * 16 ≤ data.length then some out else none

/-- The Canvas value of canvas.rs lines 34-42. -/
structure Canvas where
  data : List Nat
  depth : WzCanvasDepth
  raw_w : Nat
  raw_h : Nat
  width : Nat
  height : Nat
  scale : Nat

/-- Embedding of Canvas::from_data (canvas.rs lines 45-55). -/
def Canvas.from_data (data : List Nat) (c : WzCanvas) : Canvas :=
  { data := data, depth := c.depth, width := c.widthU, height := c.heightU,
    scale := c.scale, raw_w := c.raw_width, raw_h := c.raw_height }

/-- Embedding of Canvas::to_raw_rgba_image (canvas.rs lines 57-98).  The
BGRA4444 and BGRA8888 arms index the u16/u32 view with the LOGICAL width
as stride, BGR565 with the raw width; the BC3 arm decompresses and frames
at the raw dimensions while the BC5 arm passes the LOGICAL dimensions to
the decompressor and to from_raw over the raw-sized buffer.  A bytemuck
cast of an odd-length (resp. non-multiple-of-4) buffer panics, modelled
as none. -/
def Canvas.to_raw_rgba_image (c : Canvas) : Option RgbaImage :=
  let w := c.raw_w
  let h := c.raw_h
  match c.depth with
  | .bgra4444 =>
    if c.data.length % 2 = 0 then
      rgbaFromFn w h (fun x y =>
        ((bytesToU16 c.data).get? (x + y * c.width)).map bgra4_to_rgba8)
    else none
  | .bgra8888 =>
    if c.data.length % 4 = 0 then
      rgbaFromFn w h (fun x y =>
        ((bytesToU32 c.data).get? (x + y * c.width)).map bgra8_to_rgba8)
    else none
  | .bgr565 =>
    if c.data.length % 2 = 0 then
      rgbaFromFn w h (fun x y =>
        ((bytesToU16 c.data).get? (x + y * w)).map bgr565_to_rgba8)
    else none
  | .dxt3 =>
    match texpressoDecompress c.data w h (List.replicate (w * h * 4) 0) with
    | none => none
    | some buf => rgbaFromRaw w h buf
  | .dxt5 =>
    match texpressoDecompress c.data c.width c.height (List.replicate (w * h * 4) 0) with
    | none => none
    | some buf => rgbaFromRaw c.width c.height buf

theorem optTraverse_length (f : α → Option β) :
    ∀ (l : List α) (out : List β), optTraverse f l = some out → out.length = l.length := by
  intro l
  induction l with
  | nil =>
    intro out h
    simp only [optTraverse] at h
    cases h
    rfl
  | cons a rest ih =>
    intro out h
    simp only [optTraverse] at h
    cases hf : f a with
    | none => rw [hf] at h; cases h
    | some b =>
      rw [hf] at h
      cases hr : optTraverse f rest with
      | none => rw [hr] at h; cases h
      | some bs =>
        rw [hr] at h
        cases h
        simp [ih bs hr]

theorem optTraverse_mem (f : α → Option β) :
    ∀ (l : List α) (out : List β), optTraverse f l = some out →
      ∀ b ∈ out, ∃ a ∈ l, f a = some b := by
  intro l
  induction l with
  | nil =>
    intro out h
    simp only [optTraverse] at h
    cases h
    simp
  | cons a rest ih =>
    intro out h
    simp only [optTraverse] at h
    cases hf : f a with
    | none => rw [hf] at h; cases h
    | some b0 =>
      rw [hf] at h
      cases hr : optTraverse f rest with
      | none => rw [hr] at h; cases h
      | some bs =>
        rw [hr] at h
        cases h
        intro b hb
        rcases List.mem_cons.mp hb with rfl | hb
        · exact ⟨a, by simp, hf⟩
        · obtain ⟨a2, ha2, hfa2⟩ := ih bs hr b hb
          exact ⟨a2, by simp [ha2], hfa2⟩

theorem sum_map_const (l : List α) (c : Nat) (f : α → Nat) (h : ∀ a ∈ l, f a = c) :
    (l.map f).sum = l.length * c := by
  induction l with
  | nil => simp
  | cons a rest ih =>
    simp only [List.map_cons, List.sum_cons, List.length_cons]
    rw [h a (by simp), ih (fun a ha => h a (by simp [ha]))]
    ring

theorem rgbaFromFn_spec (w h : Nat) (f : Nat → Nat → Option (List Nat)) (img : RgbaImage)
    (hf : ∀ x y p, f x y = some p → p.length = 4)
    (hok : rgbaFromFn w h f = some img) :
    img.width = w ∧ img.height = h ∧ img.data.length = w * h * 4 := by
  unfold rgbaFromFn at hok
  cases hrows : optTraverse (fun y => optTraverse (fun x => f x y) (List.range w))
      (List.range h) with
  | none => rw [hrows] at hok; cases hok
  | some rows =>
    rw [hrows] at hok
    cases hok
    refine ⟨rfl, rfl, ?_⟩
    show ((rows.map List.flatten).flatten).length = w * h * 4
    have hrow : ∀ row ∈ rows, (List.flatten row).length = w * 4 := by
      intro row hrowmem
      obtain ⟨y, -, hy⟩ := optTraverse_mem _ (List.range h) rows hrows row hrowmem
      rw [List.length_flatten]
      have hpix : ∀ p ∈ row, p.length = 4 := by
        intro p hp
        obtain ⟨x, -, hx⟩ := optTraverse_mem _ (List.range w) row hy p hp
        exact hf x y p hx
      rw [sum_map_const row 4 List.length hpix]
      rw [optTraverse_length _ (List.range w) row hy, List.length_range]
    rw [List.length_flatten, List.map_map]
    rw [sum_map_const rows (w * 4) (List.length ∘ List.flatten)
      (fun row hr => hrow row hr)]
    rw [optTraverse_length _ (List.range h) rows hrows, List.length_range]
    ring

/-- C7: for the BGRA4444, BGRA8888, BGR565 and BC3 depths every successful
conversion yields an image of the raw (scale-reduced) dimensions with a
buffer of raw_width * raw_height * 4 bytes; but for BC5 (DXT5) the arm
passes the LOGICAL dimensions to the block decoder and to from_raw over
the raw-sized buffer, so with scale 4 the conversion of a successfully
decoded 16 x 16 BC5 canvas (raw bitmap 1 x 1, one byte) errors instead of
producing the 1 x 1 image the claim demands.  The second conjunct
evaluates the code at that failing input. -/
theorem c7_canvas_rgba_dims :
    (∀ (c : Canvas) (img : RgbaImage), c.depth ≠ WzCanvasDepth.dxt5 →
      c.to_raw_rgba_image = some img →
      img.width = c.raw_w ∧ img.height = c.raw_h
        ∧ img.data.length = c.raw_w * c.raw_h * 4)
  ∧ Canvas.to_raw_rgba_image
      (Canvas.from_data [0] ⟨0, 0, 16, 16, WzCanvasDepth.dxt5, 4, 0, 2, 100⟩) = none := by
  constructor
  · intro c img hne hok
    unfold Canvas.to_raw_rgba_image at hok
    cases hdepth : c.depth with
    | bgra4444 =>
      simp only [hdepth] at hok
      by_cases hmod : c.data.length % 2 = 0
      · rw [if_pos hmod] at hok
        refine rgbaFromFn_spec _ _ _ img ?_ hok
        intro x y p hp
        rcases Option.map_eq_some'.mp hp with ⟨u, -, hb⟩
        subst hb
        rfl
      · rw [if_neg hmod] at hok
        cases hok
    | bgra8888 =>
      simp only [hdepth] at hok
      by_cases hmod : c.data.length % 4 = 0
      · rw [if_pos hmod] at hok
        refine rgbaFromFn_spec _ _ _ img ?_ hok
        intro x y p hp
        rcases Option.map_eq_some'.mp hp with ⟨u, -, hb⟩
        subst hb
        simp [bgra8_to_rgba8, toLEBytes_length]
      · rw [if_neg hmod] at hok
        cases hok
    | bgr565 =>
      simp only [hdepth] at hok
      by_cases hmod : c.data.length % 2 = 0
      · rw [if_pos hmod] at hok
        refine rgbaFromFn_spec _ _ _ img ?_ hok
        intro x y p hp
        rcases Option.map_eq_some'.mp hp with ⟨u, -, hb⟩
        subst hb
        rfl
      · rw [if_neg hmod] at hok
        cases hok
    | dxt3 =>
      simp only [hdepth] at hok
      cases hd : texpressoDecompress c.data c.raw_w c.raw_h
          (List.replicate (c.raw_w * c.raw_h * 4) 0) with
      | none => rw [hd] at hok; cases hok
      | some buf =>
        rw [hd] at hok
        have hbuf : buf = List.replicate (c.raw_w * c.raw_h * 4) 0 := by
          unfold texpressoDecompress at hd
          split at hd
          · cases hd; rfl
          · cases hd
        subst hbuf
        simp only [rgbaFromRaw, List.length_replicate, le_refl, if_true] at hok
        cases hok
        refine ⟨rfl, rfl, by simp⟩
    | dxt5 => exact absurd hdepth hne
  · rfl

/-- Witness for C7 at a concrete BGR565 canvas of raw size 2 x 1 with the
matching four data bytes. -/
theorem c7_canvas_rgba_dims_witness :
    (WzCanvasDepth.bgr565 ≠ WzCanvasDepth.dxt5)
  ∧ ∃ img : RgbaImage,
      Canvas.to_raw_rgba_image
        (Canvas.from_data [1, 2, 3, 4] ⟨0, 0, 2, 1, WzCanvasDepth.bgr565, 0, 0, 5, 100⟩)
        = some img
      ∧ img.width = 2 ∧ img.height = 1 ∧ img.data.length = 8 := by
  refine ⟨by decide, ⟨2, 1, List.flatten [List.flatten
    [bgr565_to_rgba8 (1 + 256 * 2), bgr565_to_rgba8 (3 + 256 * 4)]]⟩, ?_, ?_, ?_, ?_⟩
  · rfl
  · rfl
  · rfl
  · have h := (c7_canvas_rgba_dims.1
      (Canvas.from_data [1, 2, 3, 4] ⟨0, 0, 2, 1, WzCanvasDepth.bgr565, 0, 0, 5, 100⟩)
      ⟨2, 1, List.flatten [List.flatten
        [bgr565_to_rgba8 (1 + 256 * 2), bgr565_to_rgba8 (3 + 256 * 4)]]⟩
      (by decide) (by rfl))
    simpa using h.2.2

/-! ## String-interning table (ctx.rs, l1/str.rs) -/

/-- The per-image string table (ctx.rs WzStrTable): offsets mapped to
decoded strings.  The HashMap is modelled as an association list whose
insert prepends; lookup returns the most recent binding, matching HashMap
overwrite semantics. -/
abbrev WzStrTable := List (Nat × List Nat)

/-- Embedding of WzStrTable::get / must_get (ctx.rs lines 16-23). -/
def lookupTable (tbl : WzStrTable) (k : Nat) : Option (List Nat) :=
  (tbl.find? (fun e => e.1 == k)).map Prod.snd

/-- Reading a little-endian u32 at a stream position. -/
def readU32At (stream : List Nat) (p : Nat) : Option Nat :=
  if p + 4 ≤ stream.length then some (fromLEBytes ((stream.drop p).take 4)) else none

/-- WzStr reading at an absolute position of the image stream, returning
the decoded code points and the position after the string. -/
def wzStrReadAt (E : List Nat → List Nat) (iv : List Nat) (stream : List Nat)
    (pos : Nat) : Option (List Nat × Nat) :=
  match wzStrRead E iv (stream.drop pos) with
  | some (cps, rest) => some (cps, stream.length - rest.length)
  | none => none

/-- Embedding of the BinRead impl for WzTypeStr (l1/str.rs lines 19-46)
over the image stream and table: magic 0x73 reads an inline WzStr at the
position after the magic byte and interns it there (WzImgReadCtx::read_str
records the stream position before the string, ctx.rs lines 97-102);
magic 0x1B reads a u32 offset and requires the table to hold it
(get_str / must_get, the MissingStringTableEntry error when absent). -/
def readTypeStrAt (E : List Nat → List Nat) (iv : List Nat) (stream : List Nat)
    (pos : Nat) (tbl : WzStrTable) : Option (List Nat × Nat × WzStrTable) :=
  match stream.get? pos with
  | none => none
  | some magic =>
    if magic = 0x73 then
      match wzStrReadAt E iv stream (pos + 1) with
      | none => none
      | some (cps, p2) => some (cps, p2, (pos + 1, cps) :: tbl)
    else if magic = 0x1B then
      match readU32At stream (pos + 1) with
      | none => none
      | some v =>
        match lookupTable tbl v with
        | none => none
        | some cps => some (cps, pos + 5, tbl)
    else none

/-- Embedding of the BinRead impl for WzImgStr (l1/str.rs lines 76-103):
the same protocol with name magics 0x00 inline and 0x01 back-reference. -/
def readImgStrAt (E : List Nat → List Nat) (iv : List Nat) (stream : List Nat)
    (pos : Nat) (tbl : WzStrTable) : Option (List Nat × Nat × WzStrTable) :=
  match stream.get? pos with
  | none => none
  | some magic =>
    if magic = 0 then
      match wzStrReadAt E iv stream (pos + 1) with
      | none => none
      | some (cps, p2) => some (cps, p2, (pos + 1, cps) :: tbl)
    else if magic = 1 then
      match readU32At stream (pos + 1) with
      | none => none
      | some v =>
        match lookupTable tbl v with
        | none => none
        | some cps => some (cps, pos + 5, tbl)
    else none

/-- Table consistency: every interned entry holds exactly the string the
stream decodes at its offset, so an offset can only ever map to that one
string. -/
def GoodTable (E : List Nat → List Nat) (iv stream : List Nat)
    (tbl : WzStrTable) : Prop :=
  ∀ p s, lookupTable tbl p = some s → ∃ q, wzStrReadAt E iv stream p = some (s, q)

/-- One string-reading step of an image parse: a type-string or a
property-name read at some position, transforming the table. -/
inductive TableStep (E : List Nat → List Nat) (iv stream : List Nat) :
    WzStrTable → WzStrTable → Prop where
  | typeStr (pos : Nat) (cps : List Nat) (p2 : Nat) (t t2 : WzStrTable) :
      readTypeStrAt E iv stream pos t = some (cps, p2, t2) → TableStep E iv stream t t2
  | imgStr (pos : Nat) (cps : List Nat) (p2 : Nat) (t t2 : WzStrTable) :
      readImgStrAt E iv stream pos t = some (cps, p2, t2) → TableStep E iv stream t t2

/-- Any number of string-reading steps. -/
def TableReach (E : List Nat → List Nat) (iv stream : List Nat) :
    WzStrTable → WzStrTable → Prop :=
  Relation.ReflTransGen (TableStep E iv stream)

theorem lookupTable_cons (p : Nat) (cps : List Nat) (t : WzStrTable) (k : Nat) :
    lookupTable ((p, cps) :: t) k = if p = k then some cps else lookupTable t k := by
  unfold lookupTable
  by_cases h : p = k
  · rw [if_pos h]
    rw [List.find?_cons_of_pos]
    all_goals simp [lookupTable, h]
  · rw [if_neg h]
    rw [List.find?_cons_of_neg]
    all_goals simp [lookupTable, h]

theorem readTypeStrAt_table_shape (E : List Nat → List Nat) (iv stream : List Nat)
    (pos : Nat) (t : WzStrTable) (cps : List Nat) (p2 : Nat) (t2 : WzStrTable)
    (h : readTypeStrAt E iv stream pos t = some (cps, p2, t2)) :
    t2 = t ∨ ∃ q, wzStrReadAt E iv stream (pos + 1) = some (cps, q)
      ∧ t2 = (pos + 1, cps) :: t := by
  unfold readTypeStrAt at h
  cases hm : stream.get? pos with
  | none => simp only [hm] at h; cases h
  | some magic =>
    simp only [hm] at h
    by_cases h73 : magic = 0x73
    · rw [if_pos h73] at h
      cases hr : wzStrReadAt E iv stream (pos + 1) with
      | none => simp only [hr] at h; cases h
      | some cq =>
        obtain ⟨c, q⟩ := cq
        simp only [hr, Option.some.injEq, Prod.mk.injEq] at h
        obtain ⟨rfl, rfl, rfl⟩ := h
        exact Or.inr ⟨q, rfl, rfl⟩
    · rw [if_neg h73] at h
      by_cases h1b : magic = 0x1B
      · rw [if_pos h1b] at h
        cases hv : readU32At stream (pos + 1) with
        | none => simp only [hv] at h; cases h
        | some v =>
          simp only [hv] at h
          cases hl : lookupTable t v with
          | none => simp only [hl] at h; cases h
          | some c =>
            simp only [hl] at h
            cases h
            exact Or.inl rfl
      · rw [if_neg h1b] at h
        cases h

theorem readImgStrAt_table_shape (E : List Nat → List Nat) (iv stream : List Nat)
    (pos : Nat) (t : WzStrTable) (cps : List Nat) (p2 : Nat) (t2 : WzStrTable)
    (h : readImgStrAt E iv stream pos t = some (cps, p2, t2)) :
    t2 = t ∨ ∃ q, wzStrReadAt E iv stream (pos + 1) = some (cps, q)
      ∧ t2 = (pos + 1, cps) :: t := by
  unfold readImgStrAt at h
  cases hm : stream.get? pos with
  | none => simp only [hm] at h; cases h
  | some magic =>
    simp only [hm] at h
    by_cases h0 : magic = 0
    · rw [if_pos h0] at h
      cases hr : wzStrReadAt E iv stream (pos + 1) with
      | none => simp only [hr] at h; cases h
      | some cq =>
        obtain ⟨c, q⟩ := cq
        simp only [hr, Option.some.injEq, Prod.mk.injEq] at h
        obtain ⟨rfl, rfl, rfl⟩ := h
        exact Or.inr ⟨q, rfl, rfl⟩
    · rw [if_neg h0] at h
      by_cases h1 : magic = 1
      · rw [if_pos h1] at h
        cases hv : readU32At stream (pos + 1) with
        | none => simp only [hv] at h; cases h
        | some v =>
          simp only [hv] at h
          cases hl : lookupTable t v with
          | none => simp only [hl] at h; cases h
          | some c =>
            simp only [hl] at h
            cases h
            exact Or.inl rfl
      · rw [if_neg h1] at h
        cases h

theorem tableStep_shape (E : List Nat → List Nat) (iv stream : List Nat)
    (t t2 : WzStrTable) (h : TableStep E iv stream t t2) :
    t2 = t ∨ ∃ p cps q, wzStrReadAt E iv stream p = some (cps, q)
      ∧ t2 = (p, cps) :: t := by
  cases h with
  | typeStr pos cps p2 t t2 hr =>
    rcases readTypeStrAt_table_shape E iv stream pos t cps p2 t2 hr with h | ⟨q, hq, ht⟩
    · exact Or.inl h
    · exact Or.inr ⟨pos + 1, cps, q, hq, ht⟩
  | imgStr pos cps p2 t t2 hr =>
    rcases readImgStrAt_table_shape E iv stream pos t cps p2 t2 hr with h | ⟨q, hq, ht⟩
    · exact Or.inl h
    · exact Or.inr ⟨pos + 1, cps, q, hq, ht⟩

theorem goodTable_step (E : List Nat → List Nat) (iv stream : List Nat)
    (t t2 : WzStrTable) (hg : GoodTable E iv stream t)
    (h : TableStep E iv stream t t2) : GoodTable E iv stream t2 := by
  rcases tableStep_shape E iv stream t t2 h with rfl | ⟨p, cps, q, hq, rfl⟩
  · exact hg
  · intro p' s' h'
    rw [lookupTable_cons] at h'
    by_cases hpp : p = p'
    · rw [if_pos hpp] at h'
      cases h'
      exact ⟨q, hpp ▸ hq⟩
    · rw [if_neg hpp] at h'
      exact hg p' s' h'

theorem lookup_stable_step (E : List Nat → List Nat) (iv stream : List Nat)
    (t t2 : WzStrTable) (p : Nat) (s : List Nat)
    (hg : GoodTable E iv stream t) (hl : lookupTable t p = some s)
    (h : TableStep E iv stream t t2) : lookupTable t2 p = some s := by
  rcases tableStep_shape E iv stream t t2 h with rfl | ⟨p', cps, q, hq, rfl⟩
  · exact hl
  · rw [lookupTable_cons]
    by_cases hpp : p' = p
    · rw [if_pos hpp]
      obtain ⟨q2, hq2⟩ := hg p s hl
      rw [hpp] at hq
      rw [hq] at hq2
      cases hq2
      rfl
    · rw [if_neg hpp]
      exact hl

theorem goodTable_reach (E : List Nat → List Nat) (iv stream : List Nat)
    (t t2 : WzStrTable) (hg : GoodTable E iv stream t)
    (h : TableReach E iv stream t t2) : GoodTable E iv stream t2 := by
  induction h with
  | refl => exact hg
  | tail hab hbc ih => exact goodTable_step E iv stream _ _ ih hbc

theorem lookup_stable_reach (E : List Nat → List Nat) (iv stream : List Nat)
    (t t2 : WzStrTable) (p : Nat) (s : List Nat)
    (hg : GoodTable E iv stream t) (hl : lookupTable t p = some s)
    (h : TableReach E iv stream t t2) : lookupTable t2 p = some s := by
  induction h with
  | refl => exact hl
  | tail hab hbc ih =>
    exact lookup_stable_step E iv stream _ _ p s
      (goodTable_reach E iv stream _ _ hg hab) ih hbc

/-- C8: within one image reader the string table maps each absolute byte
offset to exactly one string.  First conjunct: every entry always holds
exactly the string the stream decodes at its offset, and this invariant
is preserved by any sequence of type-string and property-name reads.
Second: an inline type-string read (magic 0x73) interns the decoded
string at the position after the magic byte.  Third: once an offset p is
interned with string s, a type-string back-reference (magic 0x1B)
carrying p still returns s after any further reads.  Fourth: a
type-string back-reference to a never-interned offset fails
(MissingStringTableEntry).  Fifth to seventh: the same three properties
for the property-name reader WzImgStr, whose inline magic is 0x00 and
whose back-reference magic is 0x01. -/
theorem c8_string_table_interning :
    (∀ (E : List Nat → List Nat) (iv stream : List Nat) (t t2 : WzStrTable),
      GoodTable E iv stream t → TableReach E iv stream t t2 →
      GoodTable E iv stream t2)
  ∧ (∀ (E : List Nat → List Nat) (iv stream : List Nat) (pos : Nat)
      (t : WzStrTable) (cps : List Nat) (p2 : Nat) (t2 : WzStrTable),
      stream.get? pos = some 0x73 →
      readTypeStrAt E iv stream pos t = some (cps, p2, t2) →
      lookupTable t2 (pos + 1) = some cps)
  ∧ (∀ (E : List Nat → List Nat) (iv stream : List Nat) (t t2 : WzStrTable)
      (p q : Nat) (s : List Nat),
      GoodTable E iv stream t → lookupTable t p = some s →
      TableReach E iv stream t t2 →
      stream.get? q = some 0x1B → readU32At stream (q + 1) = some p →
      readTypeStrAt E iv stream q t2 = some (s, q + 5, t2))
  ∧ (∀ (E : List Nat → List Nat) (iv stream : List Nat) (t : WzStrTable)
      (q p : Nat),
      lookupTable t p = none →
      stream.get? q = some 0x1B → readU32At stream (q + 1) = some p →
      readTypeStrAt E iv stream q t = none)
  ∧ (∀ (E : List Nat → List Nat) (iv stream : List Nat) (pos : Nat)
      (t : WzStrTable) (cps : List Nat) (p2 : Nat) (t2 : WzStrTable),
      stream.get? pos = some 0 →
      readImgStrAt E iv stream pos t = some (cps, p2, t2) →
      lookupTable t2 (pos + 1) = some cps)
  ∧ (∀ (E : List Nat → List Nat) (iv stream : List Nat) (t t2 : WzStrTable)
      (p q : Nat) (s : List Nat),
      GoodTable E iv stream t → lookupTable t p = some s →
      TableReach E iv stream t t2 →
      stream.get? q = some 1 → readU32At stream (q + 1) = some p →
      readImgStrAt E iv stream q t2 = some (s, q + 5, t2))
  ∧ (∀ (E : List Nat → List Nat) (iv stream : List Nat) (t : WzStrTable)
      (q p : Nat),
      lookupTable t p = none →
      stream.get? q = some 1 → readU32At stream (q + 1) = some p →
      readImgStrAt E iv stream q t = none) := by
  refine ⟨goodTable_reach, ?_, ?_, ?_, ?_, ?_, ?_⟩
  · intro E iv stream pos t cps p2 t2 hm h
    unfold readTypeStrAt at h
    simp only [hm, if_true] at h
    cases hr : wzStrReadAt E iv stream (pos + 1) with
    | none => simp only [hr] at h; cases h
    | some cq =>
      obtain ⟨c, q⟩ := cq
      simp only [hr, Option.some.injEq, Prod.mk.injEq] at h
      obtain ⟨rfl, rfl, rfl⟩ := h
      rw [lookupTable_cons, if_pos rfl]
  · intro E iv stream t t2 p q s hg hl hreach hm hu
    have hl2 : lookupTable t2 p = some s :=
      lookup_stable_reach E iv stream t t2 p s hg hl hreach
    unfold readTypeStrAt
    simp only [hm]
    rw [if_neg (show ¬ ((0x1B : Nat) = 0x73) from by decide)]
    simp only [if_true, hu, hl2]
  · intro E iv stream t q p hl hm hu
    unfold readTypeStrAt
    simp only [hm]
    rw [if_neg (show ¬ ((0x1B : Nat) = 0x73) from by decide)]
    simp only [if_true, hu, hl]
  · intro E iv stream pos t cps p2 t2 hm h
    unfold readImgStrAt at h
    simp only [hm, if_true] at h
    cases hr : wzStrReadAt E iv stream (pos + 1) with
    | none => simp only [hr] at h; cases h
    | some cq =>
      obtain ⟨c, q⟩ := cq
      simp only [hr, Option.some.injEq, Prod.mk.injEq] at h
      obtain ⟨rfl, rfl, rfl⟩ := h
      rw [lookupTable_cons, if_pos rfl]
  · intro E iv stream t t2 p q s hg hl hreach hm hu
    have hl2 : lookupTable t2 p = some s :=
      lookup_stable_reach E iv stream t t2 p s hg hl hreach
    unfold readImgStrAt
    simp only [hm]
    rw [if_neg (show ¬ ((1 : Nat) = 0) from by decide)]
    simp only [if_true, hu, hl2]
  · intro E iv stream t q p hl hm hu
    unfold readImgStrAt
    simp only [hm]
    rw [if_neg (show ¬ ((1 : Nat) = 0) from by decide)]
    simp only [if_true, hu, hl]

/-- Witness for C8 on concrete eight-byte image streams, each holding an
inline string at position 0 (interned at offset 1) followed by a
back-reference to offset 1, under both magic pairs (0x73/0x1B for type
strings, 0x00/0x01 for property names), plus streams whose
back-reference targets the never-read offset 2. -/
theorem c8_string_table_interning_witness :
    lookupTable [(1, [97])] 1 = some [97]
  ∧ readTypeStrAt (fun _ => List.range 16) [] [0x73, 0xFF, 203, 0x1B, 1, 0, 0, 0] 3
      [(1, [97])] = some ([97], 8, [(1, [97])])
  ∧ readTypeStrAt (fun _ => List.range 16) [] [0x1B, 2, 0, 0, 0] 0 [] = none
  ∧ lookupTable [(1, [97]), (9, [98])] 1 = some [97]
  ∧ readImgStrAt (fun _ => List.range 16) [] [0, 0xFF, 203, 1, 1, 0, 0, 0] 3
      [(1, [97])] = some ([97], 8, [(1, [97])])
  ∧ readImgStrAt (fun _ => List.range 16) [] [1, 2, 0, 0, 0] 0 [] = none := by
  obtain ⟨-, h2, h3, h4, h5, h6, h7⟩ := c8_string_table_interning
  refine ⟨?_, ?_, ?_, ?_, ?_, ?_⟩
  · exact h2 (fun _ => List.range 16) [] [0x73, 0xFF, 203, 0x1B, 1, 0, 0, 0] 0 [] [97] 3
      [(1, [97])] (by decide) (by decide)
  · refine h3 (fun _ => List.range 16) [] [0x73, 0xFF, 203, 0x1B, 1, 0, 0, 0]
      [(1, [97])] [(1, [97])] 1 3 [97] ?_ (by decide) Relation.ReflTransGen.refl
      (by decide) (by decide)
    intro p s h
    rw [lookupTable_cons] at h
    by_cases hp : 1 = p
    · rw [if_pos hp] at h
      cases h
      subst hp
      exact ⟨3, by decide⟩
    · rw [if_neg hp] at h
      cases h
  · exact h4 (fun _ => List.range 16) [] [0x1B, 2, 0, 0, 0] [] 0 2 rfl (by decide) (by decide)
  · exact h5 (fun _ => List.range 16) [] [0, 0xFF, 203, 1, 1, 0, 0, 0] 0 [(9, [98])] [97] 3
      [(1, [97]), (9, [98])] (by decide) (by decide)
  · refine h6 (fun _ => List.range 16) [] [0, 0xFF, 203, 1, 1, 0, 0, 0]
      [(1, [97])] [(1, [97])] 1 3 [97] ?_ (by decide) Relation.ReflTransGen.refl
      (by decide) (by decide)
    intro p s h
    rw [lookupTable_cons] at h
    by_cases hp : 1 = p
    · rw [if_pos hp] at h
      cases h
      subst hp
      exact ⟨3, by decide⟩
    · rw [if_neg hp] at h
      cases h
  · exact h7 (fun _ => List.range 16) [] [1, 2, 0, 0, 0] [] 0 2 rfl (by decide) (by decide)

/-! ## Archive traversal (file.rs, WzReader::traverse_images)

WzImgTraverser resolves a Dir header by seeking to its offset and parsing
the directory there (read_dir_node).  On a well-formed archive (finite,
acyclic, every offset parsing consistently) this resolution is a function
of the header, modelled by storing each directory's parsed entries inline
with its header.  Paths are lists of characters, built exactly as the
format string {}/{} does. -/

/-- A resolved directory-tree node: Nil, Link (carrying the resolved
image header), Dir (header with its resolved entries) or Img. -/
inductive WzTreeNode where
  | nil
  | link (linkImg : WzImgHeader)
  | dir (hdr : WzDirHeader) (entries : List WzTreeNode)
  | img (hdr : WzImgHeader)

mutual

/-- Structural size of a node, for traversal termination. -/
def WzTreeNode.size : WzTreeNode → Nat
  | .nil => 1
  | .link _ => 1
  | .img _ => 1
  | .dir _ entries => 1 + sizeNodes entries

/-- Total size of a node list. -/
def sizeNodes : List WzTreeNode → Nat
  | [] => 0
  | n :: rest => n.size + sizeNodes rest

end

/-- Total size of a traversal queue. -/
def queueSize (q : List (List Char × WzTreeNode)) : Nat :=
  sizeNodes (q.map Prod.snd)

theorem sizeNodes_append (a b : List WzTreeNode) :
    sizeNodes (a ++ b) = sizeNodes a + sizeNodes b := by
  induction a with
  | nil => simp [sizeNodes]
  | cons n rest ih =>
    simp only [List.cons_append, sizeNodes]
    rw [show rest.append b = rest ++ b from rfl, ih]
    omega

theorem size_pos (n : WzTreeNode) : 1 ≤ n.size := by
  cases n <;> simp [WzTreeNode.size]

theorem queueSize_cons (p : List Char × WzTreeNode) (q : List (List Char × WzTreeNode)) :
    queueSize (p :: q) = p.2.size + queueSize q := by
  simp [queueSize, sizeNodes]

theorem queueSize_append (a b : List (List Char × WzTreeNode)) :
    queueSize (a ++ b) = queueSize a + queueSize b := by
  simp [queueSize, sizeNodes_append]

theorem queueSize_map_entries (p : List Char) (entries : List WzTreeNode) :
    queueSize (entries.map (fun e => (p, e))) = sizeNodes entries := by
  simp [queueSize, List.map_map]

/-- Embedding of the traversal loop (file.rs lines 292-348): pop the
front of the queue; a Dir is resolved and its entries appended to the
queue under the path root/dirname (handle_dir); an Img yields
root/imgname with its header; a Link yields the linked image under the
LINK's path position; Nil entries are skipped. -/
def traverseGo (q : List (List Char × WzTreeNode)) : List (List Char × WzImgHeader) :=
  match q with
  | [] => []
  | (rootName, .dir hdr entries) :: rest =>
    traverseGo (rest ++ entries.map (fun e => (rootName ++ '/' :: hdr.name, e)))
  | (rootName, .img h) :: rest => (rootName ++ '/' :: h.name, h) :: traverseGo rest
  | (rootName, .link li) :: rest => (rootName ++ '/' :: li.name, li) :: traverseGo rest
  | (_, .nil) :: rest => traverseGo rest
termination_by queueSize q
decreasing_by
  · rw [queueSize_append, queueSize_map_entries, queueSize_cons]
    simp [WzTreeNode.size]
    omega
  · rw [queueSize_cons]
    simp [WzTreeNode.size]
  · rw [queueSize_cons]
    simp [WzTreeNode.size]
  · rw [queueSize_cons]
    simp [WzTreeNode.size]

/-- Embedding of WzDirHeader::root (l0/mod.rs lines 62-71). -/
def WzDirHeader.root (name : List Char) (rootSize : Int) (offset : Nat) : WzDirHeader :=
  ⟨name, rootSize, 1, offset⟩

/-- Embedding of WzReader::traverse_images (file.rs lines 259-266): the
queue starts with the empty path and a synthetic Dir header named root at
the root offset, whose resolved entries are the root directory. -/
def traverseImages (rootEntries : List WzTreeNode) (rootOffset : Nat) :
    List (List Char × WzImgHeader) :=
  traverseGo [([], .dir (WzDirHeader.root "root".toList 1 rootOffset) rootEntries)]

mutual

/-- Number of images a node contributes to the traversal: Img and Link
entries each yield one, Nil none, a Dir the images of its entries. -/
def countImgs : WzTreeNode → Nat
  | .nil => 0
  | .img _ => 1
  | .link _ => 1
  | .dir _ entries => countImgsList entries

/-- Number of images of a node list. -/
def countImgsList : List WzTreeNode → Nat
  | [] => 0
  | n :: rest => countImgs n + countImgsList rest

end

theorem countImgsList_append (a b : List WzTreeNode) :
    countImgsList (a ++ b) = countImgsList a + countImgsList b := by
  induction a with
  | nil => simp [countImgsList]
  | cons n rest ih =>
    simp only [List.cons_append, countImgsList]
    rw [show rest.append b = rest ++ b from rfl, ih]
    omega

theorem countImgsList_map_entries (p : List Char) (entries : List WzTreeNode) :
    countImgsList ((entries.map (fun e => (p, e))).map Prod.snd) = countImgsList entries := by
  rw [List.map_map]
  simp

theorem traverseGo_length (q : List (List Char × WzTreeNode)) :
    (traverseGo q).length = countImgsList (q.map Prod.snd) := by
  induction q using traverseGo.induct with
  | case1 =>
    rw [traverseGo]
    rfl
  | case2 rootName hdr entries rest ih =>
    rw [traverseGo, ih]
    simp only [List.map_append, List.map_cons]
    rw [countImgsList_append, countImgsList_map_entries]
    simp only [countImgsList, countImgs]
    omega
  | case3 rootName h rest ih =>
    rw [traverseGo, List.length_cons, ih]
    simp only [List.map_cons, countImgsList, countImgs]
    omega
  | case4 rootName li rest ih =>
    rw [traverseGo, List.length_cons, ih]
    simp only [List.map_cons, countImgsList, countImgs]
    omega
  | case5 p rest ih =>
    rw [traverseGo, ih]
    simp [countImgsList, countImgs]

/-- Images yielded by one queue level, in order: the Img and Link entries
of the level. -/
def levelImgs : List (List Char × WzTreeNode) → List (List Char × WzImgHeader)
  | [] => []
  | (p, .img h) :: rest => (p ++ '/' :: h.name, h) :: levelImgs rest
  | (p, .link li) :: rest => (p ++ '/' :: li.name, li) :: levelImgs rest
  | (_, .dir _ _) :: rest => levelImgs rest
  | (_, .nil) :: rest => levelImgs rest

/-- The next queue level: the children of the level's directories, in
order, under their directory paths. -/
def levelNext : List (List Char × WzTreeNode) → List (List Char × WzTreeNode)
  | [] => []
  | (p, .dir hdr entries) :: rest =>
    entries.map (fun e => (p ++ '/' :: hdr.name, e)) ++ levelNext rest
  | (_, .img _) :: rest => levelNext rest
  | (_, .link _) :: rest => levelNext rest
  | (_, .nil) :: rest => levelNext rest

theorem queueSize_levelNext_le (q : List (List Char × WzTreeNode)) :
    queueSize (levelNext q) + q.length ≤ queueSize q := by
  induction q with
  | nil => simp [levelNext, queueSize, sizeNodes]
  | cons e rest ih =>
    obtain ⟨p, n⟩ := e
    cases n with
    | nil =>
      rw [levelNext, queueSize_cons]
      simp only [List.length_cons, WzTreeNode.size]
      omega
    | link li =>
      rw [levelNext, queueSize_cons]
      simp only [List.length_cons, WzTreeNode.size]
      omega
    | img h =>
      rw [levelNext, queueSize_cons]
      simp only [List.length_cons, WzTreeNode.size]
      omega
    | dir hdr entries =>
      rw [levelNext, queueSize_append, queueSize_map_entries, queueSize_cons]
      simp only [List.length_cons, WzTreeNode.size]
      omega

/-- Level-order enumeration of the images: the current level's images,
then the levels below. -/
def bfsLevels (q : List (List Char × WzTreeNode)) : List (List Char × WzImgHeader) :=
  match q with
  | [] => []
  | qh :: qt => levelImgs (qh :: qt) ++ bfsLevels (levelNext (qh :: qt))
termination_by queueSize q
decreasing_by
  have h := queueSize_levelNext_le (qh :: qt)
  simp only [List.length_cons] at h
  omega

theorem traverseGo_level_go (n : Nat) :
    ∀ q₁ q₂, queueSize q₁ + queueSize q₂ ≤ n →
      traverseGo (q₁ ++ q₂) = levelImgs q₁ ++ traverseGo (q₂ ++ levelNext q₁) := by
  induction n with
  | zero =>
    intro q₁ q₂ hle
    match q₁ with
    | [] => simp [levelImgs, levelNext]
    | (p, node) :: rest =>
      exfalso
      rw [queueSize_cons, show ((p, node).2).size = node.size from rfl] at hle
      have := size_pos node
      omega
  | succ n ih =>
    intro q₁ q₂ hle
    match q₁ with
    | [] => simp [levelImgs, levelNext]
    | (p, .nil) :: rest =>
      rw [queueSize_cons] at hle
      simp only [WzTreeNode.size] at hle
      rw [List.cons_append, traverseGo, ih rest q₂ (by omega)]
      simp only [levelImgs, levelNext]
    | (p, .img h) :: rest =>
      rw [queueSize_cons] at hle
      simp only [WzTreeNode.size] at hle
      rw [List.cons_append, traverseGo, ih rest q₂ (by omega)]
      simp only [levelImgs, levelNext, List.cons_append]
    | (p, .link li) :: rest =>
      rw [queueSize_cons] at hle
      simp only [WzTreeNode.size] at hle
      rw [List.cons_append, traverseGo, ih rest q₂ (by omega)]
      simp only [levelImgs, levelNext, List.cons_append]
    | (p, .dir hdr entries) :: rest =>
      rw [queueSize_cons] at hle
      simp only [WzTreeNode.size] at hle
      have hsz : queueSize rest
          + queueSize (q₂ ++ entries.map (fun e => (p ++ '/' :: hdr.name, e))) ≤ n := by
        rw [queueSize_append, queueSize_map_entries]
        omega
      rw [List.cons_append, traverseGo,
        show (rest ++ q₂) ++ entries.map (fun e => (p ++ '/' :: hdr.name, e))
            = rest ++ (q₂ ++ entries.map (fun e => (p ++ '/' :: hdr.name, e)))
          from List.append_assoc _ _ _,
        ih rest _ hsz]
      simp only [levelImgs, levelNext]
      rw [List.append_assoc]

/-- The traversal enumerates images level by level (BFS): it agrees with
the level-order enumeration bfsLevels on every queue. -/
theorem traverseGo_eq_bfsLevels (q : List (List Char × WzTreeNode)) :
    traverseGo q = bfsLevels q := by
  induction q using bfsLevels.induct with
  | case1 =>
    rw [traverseGo, bfsLevels]
  | case2 qh qt ih =>
    have h := traverseGo_level_go (queueSize (qh :: qt)) (qh :: qt) []
      (by simp [queueSize, sizeNodes])
    simp only [List.append_nil, List.nil_append] at h
    rw [h, ih, bfsLevels]

/-- The name a queue entry contributes to paths (none for Nil). -/
def nodeName? : WzTreeNode → Option (List Char)
  | .nil => none
  | .img h => some h.name
  | .link li => some li.name
  | .dir hdr _ => some hdr.name

/-- Well-formed subtree: every name is slash-free and the named entries of
every directory have pairwise-distinct names. -/
inductive WFTree : WzTreeNode → Prop where
  | nil : WFTree .nil
  | img (h : WzImgHeader) : '/' ∉ h.name → WFTree (.img h)
  | link (li : WzImgHeader) : '/' ∉ li.name → WFTree (.link li)
  | dir (hdr : WzDirHeader) (entries : List WzTreeNode) :
      '/' ∉ hdr.name →
      (entries.filterMap nodeName?).Nodup →
      (∀ e ∈ entries, WFTree e) → WFTree (.dir hdr entries)

mutual

/-- All full paths the traversal can yield from node n queued under path p. -/
def nodePaths : List Char → WzTreeNode → List (List Char)
  | _, .nil => []
  | p, .img h => [p ++ '/' :: h.name]
  | p, .link li => [p ++ '/' :: li.name]
  | p, .dir hdr entries => nodePathsList (p ++ '/' :: hdr.name) entries

/-- All full paths yielded from a list of sibling nodes under path p. -/
def nodePathsList : List Char → List WzTreeNode → List (List Char)
  | _, [] => []
  | p, n :: rest => nodePaths p n ++ nodePathsList p rest

end

theorem sizeNodes_mem_le (m : WzTreeNode) (es : List WzTreeNode) (h : m ∈ es) :
    m.size ≤ sizeNodes es := by
  induction es with
  | nil => cases h
  | cons n rest ih =>
    rcases List.mem_cons.mp h with h1 | h2
    · subst h1
      simp only [sizeNodes]
      omega
    · have := ih h2
      simp only [sizeNodes]
      omega

theorem nodePathsList_mem (p : List Char) (es : List WzTreeNode) (q : List Char)
    (h : q ∈ nodePathsList p es) : ∃ m ∈ es, q ∈ nodePaths p m := by
  induction es with
  | nil => simp [nodePathsList] at h
  | cons n rest ih =>
    simp only [nodePathsList, List.mem_append] at h
    rcases h with h1 | h2
    · exact ⟨n, List.mem_cons_self n rest, h1⟩
    · obtain ⟨m, hm, hq⟩ := ih h2
      exact ⟨m, List.mem_cons_of_mem n hm, hq⟩

theorem nodePaths_shape (fuel : Nat) :
    ∀ n p q, WzTreeNode.size n ≤ fuel → q ∈ nodePaths p n →
      ∃ nm t, nodeName? n = some nm ∧ q = p ++ '/' :: (nm ++ t) ∧
        (t = [] ∨ ∃ t2, t = '/' :: t2) := by
  induction fuel with
  | zero =>
    intro n p q hle _
    exfalso
    have := size_pos n
    omega
  | succ fuel ih =>
    intro n p q hle hmem
    cases n with
    | nil => simp [nodePaths] at hmem
    | img h =>
      simp only [nodePaths, List.mem_singleton] at hmem
      refine ⟨h.name, [], rfl, ?_, Or.inl rfl⟩
      rw [hmem]
      simp
    | link li =>
      simp only [nodePaths, List.mem_singleton] at hmem
      refine ⟨li.name, [], rfl, ?_, Or.inl rfl⟩
      rw [hmem]
      simp
    | dir hdr entries =>
      simp only [nodePaths] at hmem
      obtain ⟨m, hm, hq⟩ := nodePathsList_mem _ _ _ hmem
      have hsz : m.size ≤ fuel := by
        have h1 := sizeNodes_mem_le m entries hm
        simp only [WzTreeNode.size] at hle
        omega
      obtain ⟨nm2, t2, _, hshape, _⟩ := ih m _ q hsz hq
      refine ⟨hdr.name, '/' :: (nm2 ++ t2), rfl, ?_, Or.inr ⟨_, rfl⟩⟩
      rw [hshape]
      simp

theorem slashfree_path_inj (t1 t2 : List Char)
    (ht1 : t1 = [] ∨ ∃ s, t1 = '/' :: s) (ht2 : t2 = [] ∨ ∃ s, t2 = '/' :: s) :
    ∀ nm1 nm2 : List Char, '/' ∉ nm1 → '/' ∉ nm2 →
      nm1 ++ t1 = nm2 ++ t2 → nm1 = nm2 := by
  intro nm1
  induction nm1 with
  | nil =>
    intro nm2 h1 h2 heq
    cases nm2 with
    | nil => rfl
    | cons d nm2t =>
      exfalso
      simp only [List.nil_append, List.cons_append] at heq
      rcases ht1 with rfl | ⟨s, rfl⟩
      · simp at heq
      · injection heq with hd _
        exact h2 (by rw [← hd]; exact List.mem_cons_self _ _)
  | cons c nm1t ih =>
    intro nm2 h1 h2 heq
    cases nm2 with
    | nil =>
      exfalso
      simp only [List.cons_append, List.nil_append] at heq
      rcases ht2 with rfl | ⟨s, rfl⟩
      · simp at heq
      · injection heq with hc _
        exact h1 (by rw [hc]; exact List.mem_cons_self _ _)
    | cons d nm2t =>
      simp only [List.cons_append, List.cons.injEq] at heq
      obtain ⟨rfl, heq2⟩ := heq
      rw [ih nm2t (fun hm => h1 (List.mem_cons_of_mem _ hm))
        (fun hm => h2 (List.mem_cons_of_mem _ hm)) heq2]

theorem wfTree_name_noslash (n : WzTreeNode) (nm : List Char)
    (hwf : WFTree n) (hn : nodeName? n = some nm) : '/' ∉ nm := by
  cases hwf with
  | nil => simp [nodeName?] at hn
  | img h hs =>
    simp only [nodeName?, Option.some.injEq] at hn
    rw [← hn]
    exact hs
  | link li hs =>
    simp only [nodeName?, Option.some.injEq] at hn
    rw [← hn]
    exact hs
  | dir hdr entries hs _ _ =>
    simp only [nodeName?, Option.some.injEq] at hn
    rw [← hn]
    exact hs

theorem nodePathsList_nodup_go (fuel : Nat) :
    ∀ es p, sizeNodes es ≤ fuel →
      (es.filterMap nodeName?).Nodup →
      (∀ e ∈ es, WFTree e) →
      (nodePathsList p es).Nodup := by
  induction fuel with
  | zero =>
    intro es p hle _ _
    cases es with
    | nil => simp [nodePathsList]
    | cons n rest =>
      exfalso
      have := size_pos n
      simp only [sizeNodes] at hle
      omega
  | succ fuel ih =>
    have hnode : ∀ n p, WzTreeNode.size n ≤ fuel + 1 → WFTree n →
        (nodePaths p n).Nodup := by
      intro n p hle hwf
      cases hwf with
      | nil => simp [nodePaths]
      | img h hs => simp [nodePaths]
      | link li hs => simp [nodePaths]
      | dir hdr entries hs hnd hall =>
        simp only [nodePaths]
        refine ih entries _ ?_ hnd hall
        simp only [WzTreeNode.size] at hle
        omega
    intro es p hle hnd hall
    induction es with
    | nil => simp [nodePathsList]
    | cons n rest ihl =>
      simp only [nodePathsList]
      rw [List.nodup_append]
      refine ⟨?_, ?_, ?_⟩
      · refine hnode n p ?_ (hall n (List.mem_cons_self n rest))
        simp only [sizeNodes] at hle
        omega
      · refine ihl ?_ ?_ ?_
        · simp only [sizeNodes] at hle
          have := size_pos n
          omega
        · exact List.Nodup.sublist
            (List.Sublist.filterMap _ (List.sublist_cons_self n rest)) hnd
        · intro e he
          exact hall e (List.mem_cons_of_mem n he)
      · intro q hq1 hq2
        obtain ⟨nm1, t1, hn1, hq1e, ht1⟩ := nodePaths_shape n.size n p q le_rfl hq1
        obtain ⟨m, hm, hqm⟩ := nodePathsList_mem p rest q hq2
        obtain ⟨nm2, t2, hn2, hq2e, ht2⟩ := nodePaths_shape m.size m p q le_rfl hqm
        have hs1 : '/' ∉ nm1 :=
          wfTree_name_noslash n nm1 (hall n (List.mem_cons_self n rest)) hn1
        have hs2 : '/' ∉ nm2 :=
          wfTree_name_noslash m nm2 (hall m (List.mem_cons_of_mem n hm)) hn2
        have heq : nm1 ++ t1 = nm2 ++ t2 := by
          have h3 := hq1e.symm.trans hq2e
          have h4 := List.append_cancel_left h3
          injection h4
        have hname : nm1 = nm2 := slashfree_path_inj t1 t2 ht1 ht2 nm1 nm2 hs1 hs2 heq
        have hmem2 : nm2 ∈ rest.filterMap nodeName? :=
          List.mem_filterMap.mpr ⟨m, hm, hn2⟩
        have hnotin : nm1 ∉ rest.filterMap nodeName? := by
          rw [List.filterMap_cons, hn1] at hnd
          exact (List.nodup_cons.mp hnd).1
        exact hnotin (hname ▸ hmem2)

/-- Paths producible from a whole queue, entry by entry. -/
def queuePaths : List (List Char × WzTreeNode) → List (List Char)
  | [] => []
  | (p, n) :: rest => nodePaths p n ++ queuePaths rest

theorem queuePaths_append (a b : List (List Char × WzTreeNode)) :
    queuePaths (a ++ b) = queuePaths a ++ queuePaths b := by
  induction a with
  | nil => simp [queuePaths]
  | cons e rest ih =>
    obtain ⟨p, n⟩ := e
    simp only [List.cons_append, queuePaths]
    rw [show rest.append b = rest ++ b from rfl, ih, List.append_assoc]

theorem queuePaths_map_entries (p : List Char) (es : List WzTreeNode) :
    queuePaths (es.map (fun e => (p, e))) = nodePathsList p es := by
  induction es with
  | nil => simp [queuePaths, nodePathsList]
  | cons n rest ih => simp only [List.map_cons, queuePaths, nodePathsList, ih]

theorem traverseGo_paths_perm_go (fuel : Nat) :
    ∀ q, queueSize q ≤ fuel →
      ((traverseGo q).map Prod.fst).Perm (queuePaths q) := by
  induction fuel with
  | zero =>
    intro q hle
    match q with
    | [] =>
      rw [traverseGo]
      simp [queuePaths]
    | (p, n) :: rest =>
      exfalso
      rw [queueSize_cons, show ((p, n).2).size = n.size from rfl] at hle
      have := size_pos n
      omega
  | succ fuel ih =>
    intro q hle
    match q with
    | [] =>
      rw [traverseGo]
      simp [queuePaths]
    | (p, .nil) :: rest =>
      rw [queueSize_cons,
        show ((p, WzTreeNode.nil).2).size = WzTreeNode.nil.size from rfl] at hle
      simp only [WzTreeNode.size] at hle
      rw [traverseGo]
      simp only [queuePaths, nodePaths, List.nil_append]
      exact ih rest (by omega)
    | (p, .img h) :: rest =>
      rw [queueSize_cons,
        show ((p, WzTreeNode.img h).2).size = (WzTreeNode.img h).size from rfl] at hle
      simp only [WzTreeNode.size] at hle
      rw [traverseGo]
      simp only [List.map_cons, queuePaths, nodePaths, List.singleton_append]
      exact List.Perm.cons _ (ih rest (by omega))
    | (p, .link li) :: rest =>
      rw [queueSize_cons,
        show ((p, WzTreeNode.link li).2).size = (WzTreeNode.link li).size from rfl] at hle
      simp only [WzTreeNode.size] at hle
      rw [traverseGo]
      simp only [List.map_cons, queuePaths, nodePaths, List.singleton_append]
      exact List.Perm.cons _ (ih rest (by omega))
    | (p, .dir hdr entries) :: rest =>
      rw [queueSize_cons,
        show ((p, WzTreeNode.dir hdr entries).2).size
            = (WzTreeNode.dir hdr entries).size from rfl] at hle
      simp only [WzTreeNode.size] at hle
      rw [traverseGo]
      have hq : queueSize (rest ++ entries.map (fun e => (p ++ '/' :: hdr.name, e))) ≤ fuel := by
        rw [queueSize_append, queueSize_map_entries]
        omega
      refine (ih _ hq).trans ?_
      rw [queuePaths_append, queuePaths_map_entries]
      simp only [queuePaths, nodePaths]
      exact List.perm_append_comm

/-- C5: counterexample to the path form of the claim: on the synthetic
archive with one image named X.img the traversal yields the single path
"/root/X.img", not "root/X.img" — handle_dir (file.rs line 303) formats
the child path as root_name/name starting from the EMPTY initial path, so
every path begins with a slash before the root name. -/
theorem c5_traverse_images_counterexample :
    traverseImages [WzTreeNode.img ⟨"X.img".toList, 1, 1, 100⟩] 62
      = [("/root/X.img".toList, ⟨"X.img".toList, 1, 1, 100⟩)]
    ∧ "/root/X.img".toList ≠ "root/X.img".toList := by
  constructor
  · rw [traverseImages, traverseGo]
    simp only [List.nil_append, List.map_cons, List.map_nil, WzDirHeader.root]
    rw [traverseGo, traverseGo]
    decide
  · decide

/-- C5 (amended): on a resolved archive, traverse_images yields exactly
countImgsList rootEntries (path, header) pairs, in breadth-first order
(it equals the level-order enumeration bfsLevels of its initial queue);
when the archive is well formed — slash-free names, distinct sibling
names — no path appears twice; and every path starts with "/root"
(a slash, then the configured root name), not with "root". -/
theorem c5_traverse_images_amended (rootEntries : List WzTreeNode) (rootOffset : Nat) :
    (traverseImages rootEntries rootOffset).length = countImgsList rootEntries
    ∧ traverseImages rootEntries rootOffset
        = bfsLevels [([], .dir (WzDirHeader.root "root".toList 1 rootOffset) rootEntries)]
    ∧ ((rootEntries.filterMap nodeName?).Nodup → (∀ e ∈ rootEntries, WFTree e) →
        ((traverseImages rootEntries rootOffset).map Prod.fst).Nodup)
    ∧ (∀ pr ∈ traverseImages rootEntries rootOffset,
        ∃ t, pr.1 = '/' :: ("root".toList ++ t)) := by
  refine ⟨?_, ?_, ?_, ?_⟩
  · rw [traverseImages, traverseGo_length]
    simp [countImgsList, countImgs]
  · rw [traverseImages, traverseGo_eq_bfsLevels]
  · intro hnd hall
    rw [traverseImages]
    have hperm := traverseGo_paths_perm_go
      (queueSize [([], .dir (WzDirHeader.root "root".toList 1 rootOffset) rootEntries)])
      _ le_rfl
    refine (hperm.nodup_iff).mpr ?_
    simp only [queuePaths, nodePaths, List.append_nil, List.nil_append]
    refine nodePathsList_nodup_go (sizeNodes rootEntries) rootEntries _ le_rfl ?_ hall
    exact hnd
  · intro pr hpr
    rw [traverseImages] at hpr
    have hperm := traverseGo_paths_perm_go
      (queueSize [([], .dir (WzDirHeader.root "root".toList 1 rootOffset) rootEntries)])
      _ le_rfl
    have hmem : pr.1 ∈ (traverseGo
        [([], .dir (WzDirHeader.root "root".toList 1 rootOffset) rootEntries)]).map
        Prod.fst := List.mem_map_of_mem Prod.fst hpr
    have hq := (hperm.mem_iff).mp hmem
    simp only [queuePaths, nodePaths, List.append_nil, List.nil_append] at hq
    obtain ⟨m, hm, hqm⟩ := nodePathsList_mem _ _ _ hq
    obtain ⟨nm, t, _, hshape, _⟩ := nodePaths_shape m.size m _ _ le_rfl hqm
    refine ⟨'/' :: (nm ++ t), ?_⟩
    rw [hshape]
    simp [WzDirHeader.root]

theorem c5_traverse_images_amended_witness :
    (traverseImages [WzTreeNode.img ⟨"A".toList, 1, 1, 10⟩,
        WzTreeNode.dir ⟨"d".toList, 2, 1, 30⟩
          [WzTreeNode.img ⟨"B".toList, 1, 1, 20⟩]] 62).length = 2
    ∧ ((traverseImages [WzTreeNode.img ⟨"A".toList, 1, 1, 10⟩,
        WzTreeNode.dir ⟨"d".toList, 2, 1, 30⟩
          [WzTreeNode.img ⟨"B".toList, 1, 1, 20⟩]] 62).map Prod.fst).Nodup := by
  have h := c5_traverse_images_amended [WzTreeNode.img ⟨"A".toList, 1, 1, 10⟩,
    WzTreeNode.dir ⟨"d".toList, 2, 1, 30⟩
      [WzTreeNode.img ⟨"B".toList, 1, 1, 20⟩]] 62
  refine ⟨?_, ?_⟩
  · rw [h.1]
    simp [countImgsList, countImgs]
  · refine h.2.2.1 (by decide) ?_
    intro e he
    simp only [List.mem_cons, List.not_mem_nil, or_false] at he
    rcases he with rfl | rfl
    · exact WFTree.img _ (by decide)
    · refine WFTree.dir _ _ (by decide) (by decide) ?_
      intro e2 he2
      simp only [List.mem_cons, List.not_mem_nil, or_false] at he2
      rcases he2 with rfl
      exact WFTree.img _ (by decide)
